import Mathlib

/-!
Verification of the join-graph resolver of `app/domain/fk_analyzer.py`.

The Python module builds, per metadata provider, a snapshot of the
foreign-key graph (adjacency matrix, name/index maps, connected-component
labels, per-unordered-pair constraint registry) and resolves shortest join
paths (`shortest_join_path`) and approximate Steiner join networks
(`connect_tables`), materializing graph edges into `JoinStep` values
(`_edge_to_step`).

The embedding below mirrors the source structure.  External library calls
(`scipy.sparse.csgraph.shortest_path` with `unweighted=True`,
`connected_components`, `minimum_spanning_tree`) are modelled by
executable Lean functions implementing their documented semantics:
breadth-first levels with predecessors, component labels whose equality
coincides with connectivity, and a stable Kruskal scan.  Python
`ValueError` is modelled as `Except.error`; the unbounded `while` loops of
`_reconstruct_path` and `_bfs_edges_from` take a fuel argument that every
call site sets above the loop's actual iteration count.
-/

set_option maxHeartbeats 1000000

/-- A raw foreign-key record as returned by the metadata provider's
`get_foreign_keys`: the Python dict with keys `name`, `referred_table`,
`constrained_columns`, `referred_columns` (a missing or `None` column list
is already normalised to `[]` by the `or ()` in the source). -/
structure FKRecord where
  name : Option String
  referred_table : Option String
  constrained_columns : List String
  referred_columns : List String
deriving DecidableEq, Repr

/-- The `ForeignKeyConstraint` frozen dataclass. -/
structure ForeignKeyConstraint where
  name : Option String
  from_table : String
  to_table : String
  column_pairs : List (String × String)
deriving DecidableEq, Repr

/-- The `JoinStep` frozen dataclass. -/
structure JoinStep where
  left_table : String
  right_table : String
  column_pairs : List (String × String)
  constraint_name : Option String
deriving DecidableEq, Repr

/-- The `ForeignKeyInfo` protocol: `get_table_names` and
`get_foreign_keys`. -/
structure FKInfo where
  tables : List String
  fks : String → List FKRecord

/-- `n = len(tables)`. -/
def nTab (info : FKInfo) : Nat := info.tables.length

/-- `name_to_idx` is built as `{t: i for i, t in enumerate(tables)}`; a
Python dict comprehension keeps the LAST index of a duplicated name. -/
def lastIdx : List String → String → Option Nat
  | [], _ => none
  | t :: ts, s =>
    match lastIdx ts s with
    | some i => some (i + 1)
    | none => if t = s then some 0 else none

/-- `name_to_idx[t]` for a known table (all uses are behind
`_ensure_known`, so the default is never reached there). -/
def idxOf (info : FKInfo) (t : String) : Nat := (lastIdx info.tables t).getD 0

/-- The constraints `_build_snapshot` records, in iteration order (tables
in provider order, each table's records in order).  A record is skipped
when `referred_table` is falsy (`None` or the empty string), when
`constrained_columns` is empty, or when the referred table is unknown
(dangling reference). -/
def validCons (info : FKInfo) : List ForeignKeyConstraint :=
  info.tables.flatMap (fun t =>
    (info.fks t).filterMap (fun r =>
      match r.referred_table with
      | none => none
      | some ref =>
        if ref = "" then none
        else if r.constrained_columns = [] then none
        else if ref ∈ info.tables then
          some ⟨r.name, t, ref, r.constrained_columns.zip r.referred_columns⟩
        else none))

/-- The `missing_refs` diagnostic set: dangling references, reported via a
non-fatal `logger.warning`; modelled as the list of (table, referred
table) pairs in iteration order. -/
def missingRefs (info : FKInfo) : List (String × String) :=
  info.tables.flatMap (fun t =>
    (info.fks t).filterMap (fun r =>
      match r.referred_table with
      | none => none
      | some ref =>
        if ref = "" then none
        else if r.constrained_columns = [] then none
        else if ref ∈ info.tables then none
        else some (t, ref)))

/-- Key equality for the `frozenset({a, b})` dictionary keys:
`{c.from_table, c.to_table} = {a, b}` as sets of at most two strings. -/
def pairMatches (c : ForeignKeyConstraint) (a b : String) : Bool :=
  (c.from_table == a && c.to_table == b) || (c.from_table == b && c.to_table == a)

/-- `edge_constraints[frozenset({a, b})]`, the empty list when the key is
absent: all recorded constraints between the unordered pair, in recording
order. -/
def edgeConstraints (info : FKInfo) (a b : String) : List ForeignKeyConstraint :=
  (validCons info).filter (fun c => pairMatches c a b)

/-- Entry (i, j) of the adjacency matrix `csr`: the COO construction
appends entries (ui, vi) and (vi, ui) with datum 1 for every recorded
constraint, and `tocsr()` sums duplicates. -/
def adjMat (info : FKInfo) (i j : Nat) : Nat :=
  ((validCons info).map (fun c =>
    (if idxOf info c.from_table = i ∧ idxOf info c.to_table = j then 1 else 0) +
    (if idxOf info c.from_table = j ∧ idxOf info c.to_table = i then 1 else 0))).sum

/-- Neighbours of u: indices with a nonzero matrix entry. -/
def nbrs (info : FKInfo) (u : Nat) : Finset Nat :=
  (Finset.range (nTab info)).filter (fun v => adjMat info u v ≠ 0)

/-- Ball of radius k around s in the undirected FK graph: the set of nodes
the breadth-first scan of `scipy.sparse.csgraph.shortest_path`
(`unweighted=True`) has reached after k levels. -/
def ball (info : FKInfo) (s : Nat) : Nat → Finset Nat
  | 0 => {s}
  | k + 1 => ball info s k ∪ (ball info s k).biUnion (fun u => nbrs info u)

/-- Linear search for the least radius whose ball contains t, starting at
level k with the given fuel. -/
def distLoop (info : FKInfo) (s t : Nat) : Nat → Nat → Option Nat
  | 0, _ => none
  | fuel + 1, k => if t ∈ ball info s k then some k else distLoop info s t fuel (k + 1)

/-- `dist[t]` of the BFS from s (`none` models the +inf of an unreachable
node).  BFS levels of an n-node graph never exceed n, so the search up to
level n is the exact scipy distance. -/
def distB (info : FKInfo) (s t : Nat) : Option Nat :=
  distLoop info s t (nTab info + 1) 0

/-- `pred[t]` of the BFS from s: a neighbour of t on the previous level
(`none` models the -9999 marker of the source and of unreachable nodes).
The model takes the least such index — a fixed deterministic tie-break,
as the claims require determinism but not a particular shortest path. -/
def predB (info : FKInfo) (s t : Nat) : Option Nat :=
  if t = s then none
  else
    match distB info s t with
    | none => none
    | some d =>
      (List.range (nTab info)).find?
        (fun u => decide (u ∈ ball info s (d - 1)) && decide (adjMat info u t ≠ 0))

/-- Loop of `_reconstruct_path`: collect `t, pred[t], ...` walking the
predecessor row until the source (excluded) or a `-9999` marker (that
node included, exactly as the Python loop does).  The fuel only guards
Lean termination; every call site passes more fuel than the length of the
predecessor chain it walks. -/
def reconLoop (pred : Nat → Option Nat) (s : Nat) : Nat → Nat → List Nat
  | 0, _ => []
  | fuel + 1, cur =>
    if cur = s then []
    else
      cur :: (match pred cur with
        | none => []
        | some p => reconLoop pred s fuel p)

/-- `_reconstruct_path(pred_row, s, t)`: walk predecessors, append s,
reverse. -/
def reconstruct_path (pred : Nat → Option Nat) (s t fuel : Nat) : List Nat :=
  (reconLoop pred s fuel t ++ [s]).reverse

/-- `components[i]`: the label of i's connected component, modelled as the
least index in the full-radius ball.  Two labels are equal exactly when
the nodes are connected, which matches the labels of
`scipy.sparse.csgraph.connected_components` up to renaming (the code
only ever compares labels for equality). -/
def comps (info : FKInfo) (i : Nat) : Nat :=
  (insert i (ball info i (nTab info))).min' (Finset.insert_nonempty i _)

/-- Orientation loop of `_edge_to_step`: one pass over the stored
constraints; the first one matching either direction wins, and a
right-to-left constraint is used with every column pair swapped. -/
def orientLoop (a b : String) : List ForeignKeyConstraint → Option JoinStep
  | [] => none
  | c :: rest =>
    if c.from_table = a ∧ c.to_table = b then
      some ⟨a, b, c.column_pairs, c.name⟩
    else if c.from_table = b ∧ c.to_table = a then
      some ⟨a, b, c.column_pairs.map (fun p => (p.2, p.1)), c.name⟩
    else orientLoop a b rest

/-- `_edge_to_step(g, u, v)`. -/
def edge_to_step (info : FKInfo) (u v : Nat) : Except String JoinStep :=
  let a := info.tables.getD u ""
  let b := info.tables.getD v ""
  match orientLoop a b (edgeConstraints info a b) with
  | some st => Except.ok st
  | none => Except.error "No oriented FK fits edge."

/-- Evaluate an edge-materializing function over a list, propagating the
first failure (a Python list comprehension over a raising function). -/
def mapE (f : Nat × Nat → Except String JoinStep) :
    List (Nat × Nat) → Except String (List JoinStep)
  | [] => Except.ok []
  | x :: xs =>
    match f x with
    | Except.error e => Except.error e
    | Except.ok y =>
      match mapE f xs with
      | Except.error e => Except.error e
      | Except.ok ys => Except.ok (y :: ys)

/-- Consecutive pairs, `zip(path, path[1:])`. -/
def cpairs {α : Type} (l : List α) : List (α × α) := l.zip l.tail

/-- `_steps_from_path(g, path)`. -/
def steps_from_path (info : FKInfo) (path : List Nat) : Except String (List JoinStep) :=
  mapE (fun uv => edge_to_step info uv.1 uv.2) (cpairs path)

/-- `shortest_join_path(fk_info, left, right)`; the raised `ValueError`s
become `Except.error`. -/
def shortest_join_path (info : FKInfo) (left right : String) :
    Except String (List JoinStep) :=
  if ([left, right].filter (fun t => decide (t ∉ info.tables))) ≠ [] then
    Except.error "Unknown tables."
  else
    let si := idxOf info left
    let ti := idxOf info right
    if comps info si ≠ comps info ti then
      Except.error "No join path between the tables."
    else
      match distB info si ti with
      | none => Except.error "No join path between the tables."
      | some _ =>
        steps_from_path info (reconstruct_path (predB info si) si ti (nTab info + 1))

/-- First-occurrence deduplication with a seen accumulator. -/
def dedupFirstAux {α : Type} [DecidableEq α] (seen : List α) : List α → List α
  | [] => []
  | x :: xs => if x ∈ seen then dedupFirstAux seen xs else x :: dedupFirstAux (x :: seen) xs

/-- `list(dict.fromkeys(tables))`: first occurrences, order kept. -/
def dedupFirst {α : Type} [DecidableEq α] (l : List α) : List α := dedupFirstAux [] l

/-- `W[i, j]` of the complete terminal graph; `none` models numpy inf
(the diagonal is never assigned and keeps its `np.inf`). -/
def wVal (info : FKInfo) (term : List Nat) (i j : Nat) : Option Nat :=
  if i = j then none
  else if i < j then distB info (term.getD i 0) (term.getD j 0)
  else distB info (term.getD j 0) (term.getD i 0)

/-- Stored entries of `csr_matrix(W)` in row-major order (scipy stores
every entry that is not exactly 0, which includes the +inf ones). -/
def mstEntries (info : FKInfo) (term : List Nat) : List (Nat × Nat × Option Nat) :=
  (List.range term.length).flatMap (fun i =>
    (List.range term.length).filterMap (fun j =>
      if wVal info term i j = some 0 then none
      else some (i, j, wVal info term i j)))

/-- Weight comparison with `none` as +inf. -/
def optLe : Option Nat → Option Nat → Bool
  | _, none => true
  | none, some _ => false
  | some a, some b => decide (a ≤ b)

/-- Stable insertion into a weight-sorted entry list. -/
def insWeighted (e : Nat × Nat × Option Nat) :
    List (Nat × Nat × Option Nat) → List (Nat × Nat × Option Nat)
  | [] => [e]
  | x :: xs => if optLe e.2.2 x.2.2 then e :: x :: xs else x :: insWeighted e xs

/-- Stable sort of the entries by weight, a model of the argsort the scipy
Kruskal implementation performs. -/
def sortEdges (l : List (Nat × Nat × Option Nat)) : List (Nat × Nat × Option Nat) :=
  l.foldr insWeighted []

/-- Kruskal scan; the union-find is modelled by a component-label list. -/
def kruskalGo : List (Nat × Nat) → List Nat → List (Nat × Nat)
  | [], _ => []
  | (i, j) :: rest, labels =>
    if labels.getD i 0 = labels.getD j 0 then kruskalGo rest labels
    else
      (i, j) :: kruskalGo rest
        (labels.map (fun l => if l = labels.getD j 0 then labels.getD i 0 else l))

/-- Lexicographic order on index pairs (CSR row-major order). -/
def pairLe (p q : Nat × Nat) : Bool :=
  decide (p.1 < q.1) || (decide (p.1 = q.1) && decide (p.2 ≤ q.2))

/-- Insertion into a row-major-sorted pair list. -/
def insPair (e : Nat × Nat) : List (Nat × Nat) → List (Nat × Nat)
  | [] => [e]
  | x :: xs => if pairLe e x then e :: x :: xs else x :: insPair e xs

/-- `minimum_spanning_tree(csr_matrix(W)).tocoo()`: the kept Kruskal edges,
output in CSR row-major order. -/
def minimum_spanning_tree (k : Nat) (entries : List (Nat × Nat × Option Nat)) :
    List (Nat × Nat) :=
  (kruskalGo ((sortEdges entries).map (fun e => (e.1, e.2.1))) (List.range k)).foldr insPair []

/-- Expansion of one MST edge back to the concrete shortest path between
its two terminals, collecting both directions of every path edge. -/
def expandEdge (info : FKInfo) (term : List Nat) (e : Nat × Nat) : List (Nat × Nat) :=
  let si := term.getD e.1 0
  let tj := term.getD e.2 0
  let p := reconstruct_path (predB info si) si tj (nTab info + 1)
  cpairs p ++ (cpairs p).map (fun q => (q.2, q.1))

/-- The accumulated undirected edge set (`edges`), modelled as a
duplicate-free list in first-insertion order.  (A Python set guarantees
membership, not an iteration order; the verified claims are insensitive
to the order chosen here.) -/
def steinerEdges (info : FKInfo) (term : List Nat) (mstE : List (Nat × Nat)) :
    List (Nat × Nat) :=
  dedupFirst (mstE.flatMap (expandEdge info term))

/-- The `adj` dict of `_bfs_edges_from`: per-source target lists in edge
iteration order. -/
def buildAdj (es : List (Nat × Nat)) (u : Nat) : List Nat :=
  (es.filter (fun e => e.1 == u)).map (fun e => e.2)

/-- The BFS loop of `_bfs_edges_from`: pop the queue front, scan the
neighbour list, emit an edge per newly seen node.  Fuel only guards Lean
termination and exceeds the possible pop count at every call site. -/
def bfsLoop (adjF : Nat → List Nat) : Nat → List Nat → List Nat → List (Nat × Nat)
  | 0, _, _ => []
  | _ + 1, [], _ => []
  | fuel + 1, u :: q, seen =>
    let acc := (adjF u).foldl
      (fun acc v =>
        if v ∈ acc.1 then acc else (v :: acc.1, acc.2.1 ++ [v], acc.2.2 ++ [(u, v)]))
      (seen, q, ([] : List (Nat × Nat)))
    acc.2.2 ++ bfsLoop adjF fuel acc.2.1 acc.1

/-- `_bfs_edges_from(start, undirected_edges)`. -/
def bfs_edges_from (start : Nat) (es : List (Nat × Nat)) : List (Nat × Nat) :=
  bfsLoop (buildAdj es) (2 * es.length + 1) [start] [start]

/-- Whether every i < j terminal pair has a finite distance (the code
raises from inside the W loop otherwise). -/
def pairsFinite (info : FKInfo) (term : List Nat) : Bool :=
  (List.range term.length).all (fun i =>
    (List.range term.length).all (fun j =>
      !(decide (i < j)) || (distB info (term.getD i 0) (term.getD j 0)).isSome))

/-- `connect_tables(fk_info, tables)`. -/
def connect_tables (info : FKInfo) (ts : List String) : Except String (List JoinStep) :=
  let requested := dedupFirst ts
  if requested.length < 2 then Except.error "Provide at least two tables."
  else if (requested.filter (fun t => decide (t ∉ info.tables))) ≠ [] then
    Except.error "Unknown tables."
  else
    let term := requested.map (idxOf info)
    if term.any (fun i => comps info i ≠ comps info (term.headD 0)) then
      Except.error "No join path connects the tables."
    else if !pairsFinite info term then
      Except.error "No join path connects the tables."
    else
      let mstE := minimum_spanning_tree term.length (mstEntries info term)
      let ordered := bfs_edges_from (term.headD 0) (steinerEdges info term mstE)
      mapE (fun uv => edge_to_step info uv.1 uv.2) ordered

/-- The unordered table pair an emitted join step spans. -/
def stepPair (st : JoinStep) : Finset String := {st.left_table, st.right_table}

/-- How `_edge_to_step` materializes one stored constraint for the
directed edge (a, b): as-is when it points a → b, with every column pair
swapped otherwise. -/
def orientOne (a b : String) (c : ForeignKeyConstraint) : JoinStep :=
  if c.from_table = a ∧ c.to_table = b then ⟨a, b, c.column_pairs, c.name⟩
  else ⟨a, b, c.column_pairs.map (fun p => (p.2, p.1)), c.name⟩

/-- A two-table provider whose pair stores a right-to-left constraint
before a left-to-right one (tables are enumerated in order b, a, so the
constraint declared at b is recorded first). -/
def exInfoPair : FKInfo :=
  { tables := ["b", "a"]
    fks := fun t =>
      if t = "b" then [⟨some "fk_ba", some "a", ["b_id"], ["id"]⟩]
      else if t = "a" then [⟨some "fk_ab", some "b", ["a_ref"], ["bid"]⟩]
      else [] }

/-- The four-table shop schema of the spec scenario: orders.customer_id →
customers.id, order_items.order_id → orders.id, order_items.product_id →
products.id. -/
def exInfoShop : FKInfo :=
  { tables := ["orders", "customers", "products", "order_items"]
    fks := fun t =>
      if t = "orders" then
        [⟨some "fk_o_c", some "customers", ["customer_id"], ["id"]⟩]
      else if t = "order_items" then
        [⟨some "fk_oi_o", some "orders", ["order_id"], ["id"]⟩,
         ⟨some "fk_oi_p", some "products", ["product_id"], ["id"]⟩]
      else [] }

/-- A provider returning a record whose `referred_columns` list is empty
while `constrained_columns` is not. -/
def exInfoEmptyRefs : FKInfo :=
  { tables := ["a", "b"]
    fks := fun t => if t = "a" then [⟨some "fk1", some "b", ["x"], []⟩] else [] }

/-- A provider with one dangling foreign key (a → ghost, and ghost is not
a table) next to an ordinary one (a → b). -/
def exInfoDangling : FKInfo :=
  { tables := ["a", "b"]
    fks := fun t =>
      if t = "a" then
        [⟨some "fk_ok", some "b", ["b_id"], ["id"]⟩,
         ⟨some "fk_bad", some "ghost", ["g_id"], ["id"]⟩]
      else [] }

/-- A provider whose graph has two connected components: a — b and c — d. -/
def exInfoSplit : FKInfo :=
  { tables := ["a", "b", "c", "d"]
    fks := fun t =>
      if t = "a" then [⟨some "fk_ab", some "b", ["b_id"], ["id"]⟩]
      else if t = "c" then [⟨some "fk_cd", some "d", ["d_id"], ["id"]⟩]
      else [] }

/-- A provider with a self-referencing foreign key (employees.manager_id →
employees.id) next to an ordinary edge employees — depts. -/
def exInfoSelf : FKInfo :=
  { tables := ["employees", "depts"]
    fks := fun t =>
      if t = "employees" then
        [⟨some "fk_mgr", some "employees", ["manager_id"], ["id"]⟩,
         ⟨some "fk_dep", some "depts", ["dept_id"], ["id"]⟩]
      else [] }

/-- The provider with one record of one table dropped (first occurrence):
used to state that a dangling record contributes nothing to the
snapshot. -/
def removeRecord (info : FKInfo) (t0 : String) (r0 : FKRecord) : FKInfo :=
  { tables := info.tables
    fks := fun t => if t = t0 then (info.fks t).erase r0 else info.fks t }

/-- Invariant of the `_bfs_edges_from` scan state (seen set, queue, output
so far) w.r.t. a vertex property `good` and the currently popped vertex
u: u is seen, the queue is seen and good, and every emitted edge joins
two distinct good vertices. -/
def bfsAccOK (good : Nat → Prop) (u : Nat)
    (acc : List Nat × List Nat × List (Nat × Nat)) : Prop :=
  u ∈ acc.1 ∧ (∀ x ∈ acc.2.1, x ∈ acc.1) ∧ (∀ x ∈ acc.2.1, good x) ∧
    (∀ p ∈ acc.2.2, p.1 ≠ p.2 ∧ good p.1 ∧ good p.2)

/-! ### Basic list and index lemmas -/

theorem natSum_eq_zero : ∀ (l : List Nat), l.sum = 0 ↔ ∀ x ∈ l, x = 0
  | [] => by simp
  | x :: xs => by
    simp [List.sum_cons, Nat.add_eq_zero, natSum_eq_zero xs]

theorem ite_add_ite_ne {P Q : Prop} [Decidable P] [Decidable Q] :
    ((if P then (1 : Nat) else 0) + (if Q then 1 else 0) ≠ 0) ↔ P ∨ Q := by
  by_cases hP : P <;> by_cases hQ : Q <;> simp [hP, hQ]

theorem lastIdx_some_of_mem {l : List String} {s : String} (h : s ∈ l) :
    ∃ i, lastIdx l s = some i := by
  induction l with
  | nil => simp at h
  | cons t ts ih =>
    by_cases hm : s ∈ ts
    · obtain ⟨i, hi⟩ := ih hm
      exact ⟨i + 1, by simp [lastIdx, hi]⟩
    · have hts : s = t := by
        rcases List.mem_cons.mp h with h1 | h2
        · exact h1
        · exact absurd h2 hm
      cases hcase : lastIdx ts s with
      | some j => exact ⟨j + 1, by simp [lastIdx, hcase]⟩
      | none => exact ⟨0, by simp [lastIdx, hcase, hts.symm]⟩

theorem lastIdx_lt {l : List String} {s : String} {i : Nat}
    (h : lastIdx l s = some i) : i < l.length := by
  induction l generalizing i with
  | nil => simp [lastIdx] at h
  | cons t ts ih =>
    cases hc : lastIdx ts s with
    | some j =>
      simp only [lastIdx, hc, Option.some.injEq] at h
      have := ih hc
      simp only [List.length_cons]
      omega
    | none =>
      simp only [lastIdx, hc] at h
      split at h
      · simp only [Option.some.injEq] at h
        simp [← h]
      · simp at h

theorem lastIdx_getD {l : List String} {s : String} {i : Nat}
    (h : lastIdx l s = some i) : l.getD i "" = s := by
  induction l generalizing i with
  | nil => simp [lastIdx] at h
  | cons t ts ih =>
    cases hc : lastIdx ts s with
    | some j =>
      simp only [lastIdx, hc, Option.some.injEq] at h
      subst h
      simpa [List.getD] using ih hc
    | none =>
      simp only [lastIdx, hc] at h
      split at h
      next heq =>
        simp only [Option.some.injEq] at h
        subst h
        simpa [List.getD] using heq
      · simp at h

theorem lastIdx_idxOf {info : FKInfo} {t : String} (h : t ∈ info.tables) :
    lastIdx info.tables t = some (idxOf info t) := by
  obtain ⟨i, hi⟩ := lastIdx_some_of_mem h
  simp [idxOf, hi]

theorem idxOf_lt {info : FKInfo} {t : String} (h : t ∈ info.tables) :
    idxOf info t < nTab info := lastIdx_lt (lastIdx_idxOf h)

theorem getD_idxOf {info : FKInfo} {t : String} (h : t ∈ info.tables) :
    info.tables.getD (idxOf info t) "" = t := lastIdx_getD (lastIdx_idxOf h)

theorem idxOf_inj {info : FKInfo} {a b : String} (ha : a ∈ info.tables)
    (hb : b ∈ info.tables) (h : idxOf info a = idxOf info b) : a = b := by
  rw [← getD_idxOf ha, ← getD_idxOf hb, h]

/-! ### Recorded constraints -/

theorem validCons_elim {info : FKInfo} {c : ForeignKeyConstraint}
    (h : c ∈ validCons info) :
    ∃ t ∈ info.tables, ∃ r ∈ info.fks t, ∃ ref,
      r.referred_table = some ref ∧ ref ≠ "" ∧ r.constrained_columns ≠ [] ∧
      ref ∈ info.tables ∧
      c = ⟨r.name, t, ref, r.constrained_columns.zip r.referred_columns⟩ := by
  simp only [validCons, List.mem_flatMap, List.mem_filterMap] at h
  obtain ⟨t, ht, r, hr, hc⟩ := h
  cases href : r.referred_table with
  | none => rw [href] at hc; simp at hc
  | some ref =>
    rw [href] at hc
    by_cases h1 : ref = ""
    · simp [h1] at hc
    by_cases h2 : r.constrained_columns = []
    · simp [h1, h2] at hc
    by_cases h3 : ref ∈ info.tables
    · simp only [h1, h2, h3, if_true, if_false, if_neg, Option.some.injEq] at hc
      exact ⟨t, ht, r, hr, ref, href, h1, h2, h3, hc.symm⟩
    · simp [h1, h2, h3] at hc

theorem validCons_of_record {info : FKInfo} {t : String} {r : FKRecord} {ref : String}
    (ht : t ∈ info.tables) (hr : r ∈ info.fks t) (href : r.referred_table = some ref)
    (h1 : ref ≠ "") (h2 : r.constrained_columns ≠ []) (h3 : ref ∈ info.tables) :
    (⟨r.name, t, ref, r.constrained_columns.zip r.referred_columns⟩ :
      ForeignKeyConstraint) ∈ validCons info := by
  simp only [validCons, List.mem_flatMap, List.mem_filterMap]
  refine ⟨t, ht, r, hr, ?_⟩
  simp [href, h1, h2, h3]

theorem validCons_tables {info : FKInfo} {c : ForeignKeyConstraint}
    (h : c ∈ validCons info) : c.from_table ∈ info.tables ∧ c.to_table ∈ info.tables := by
  obtain ⟨t, ht, r, _, ref, _, _, _, h3, hc⟩ := validCons_elim h
  subst hc
  exact ⟨ht, h3⟩

/-! ### Adjacency matrix lemmas -/

theorem adjMat_comm (info : FKInfo) (i j : Nat) : adjMat info i j = adjMat info j i := by
  unfold adjMat
  congr 1
  apply List.map_congr_left
  intro c _
  exact Nat.add_comm _ _

theorem adjMat_ne_zero_iff {info : FKInfo} {i j : Nat} :
    adjMat info i j ≠ 0 ↔
      ∃ c ∈ validCons info,
        (idxOf info c.from_table = i ∧ idxOf info c.to_table = j) ∨
        (idxOf info c.from_table = j ∧ idxOf info c.to_table = i) := by
  unfold adjMat
  rw [Ne, natSum_eq_zero]
  constructor
  · intro h
    obtain ⟨x, hx, hxne⟩ : ∃ x ∈ (validCons info).map _, x ≠ 0 := by
      by_contra hcon
      push_neg at hcon
      exact h hcon
    obtain ⟨c, hc, hmap⟩ := List.mem_map.mp hx
    rw [← hmap] at hxne
    exact ⟨c, hc, ite_add_ite_ne.mp hxne⟩
  · intro ⟨c, hc, hor⟩ hall
    have := hall _ (List.mem_map.mpr ⟨c, hc, rfl⟩)
    exact (ite_add_ite_ne.mpr hor) this

theorem adjMat_lt {info : FKInfo} {i j : Nat} (h : adjMat info i j ≠ 0) :
    i < nTab info ∧ j < nTab info := by
  obtain ⟨c, hc, hor⟩ := adjMat_ne_zero_iff.mp h
  obtain ⟨hf, ht⟩ := validCons_tables hc
  have h1 := idxOf_lt hf
  have h2 := idxOf_lt ht
  rcases hor with ⟨e1, e2⟩ | ⟨e1, e2⟩
  · rw [← e1, ← e2]; exact ⟨h1, h2⟩
  · rw [← e1, ← e2]; exact ⟨h2, h1⟩

/-! ### Walks and balls -/

/-- Walks in the undirected snapshot graph, grown by appending one edge at
the far end (matching the way balls grow level by level). -/
inductive Walk (info : FKInfo) : Nat → Nat → Nat → Prop
  | nil (u : Nat) : Walk info u u 0
  | snoc {s u t k : Nat} : Walk info s u k → adjMat info u t ≠ 0 → Walk info s t (k + 1)

theorem Walk.cons {info : FKInfo} {s u t k : Nat} (h : adjMat info s u ≠ 0)
    (w : Walk info u t k) : Walk info s t (k + 1) := by
  induction w with
  | nil => exact Walk.snoc (Walk.nil s) h
  | snoc w' hadj ih => exact Walk.snoc ih hadj

theorem Walk.symm {info : FKInfo} {s t k : Nat} (w : Walk info s t k) :
    Walk info t s k := by
  induction w with
  | nil => exact Walk.nil _
  | snoc w' hadj ih =>
    exact Walk.cons (by rw [adjMat_comm]; exact hadj) ih

theorem Walk.append {info : FKInfo} {s u t a b : Nat} (w1 : Walk info s u a)
    (w2 : Walk info u t b) : Walk info s t (a + b) := by
  induction w2 with
  | nil => exact w1
  | snoc w' hadj ih => exact Walk.snoc ih hadj

theorem mem_ball_self (info : FKInfo) (s : Nat) : ∀ k, s ∈ ball info s k := by
  intro k
  induction k with
  | zero => simp [ball]
  | succ k ih => exact Finset.mem_union_left _ ih

theorem ball_subset_succ (info : FKInfo) (s k : Nat) :
    ball info s k ⊆ ball info s (k + 1) := by
  intro x hx
  exact Finset.mem_union_left _ hx

theorem ball_mono {info : FKInfo} {s k k' : Nat} (h : k ≤ k') :
    ball info s k ⊆ ball info s k' := by
  induction h with
  | refl => exact subset_rfl
  | step h' ih => exact ih.trans (ball_subset_succ info s _)

theorem mem_ball_succ_iff {info : FKInfo} {s k t : Nat} :
    t ∈ ball info s (k + 1) ↔
      t ∈ ball info s k ∨ ∃ u ∈ ball info s k, adjMat info u t ≠ 0 := by
  constructor
  · intro h
    rcases Finset.mem_union.mp h with h1 | h2
    · exact Or.inl h1
    · obtain ⟨u, hu, ht⟩ := Finset.mem_biUnion.mp h2
      exact Or.inr ⟨u, hu, (Finset.mem_filter.mp ht).2⟩
  · intro h
    rcases h with h1 | ⟨u, hu, hadj⟩
    · exact Finset.mem_union_left _ h1
    · refine Finset.mem_union_right _ (Finset.mem_biUnion.mpr ⟨u, hu, ?_⟩)
      exact Finset.mem_filter.mpr ⟨Finset.mem_range.mpr (adjMat_lt hadj).2, hadj⟩

theorem walk_of_mem_ball {info : FKInfo} {s k t : Nat} (h : t ∈ ball info s k) :
    ∃ j ≤ k, Walk info s t j := by
  induction k generalizing t with
  | zero =>
    simp [ball] at h
    subst h
    exact ⟨0, Nat.le_refl 0, Walk.nil _⟩
  | succ k ih =>
    rcases mem_ball_succ_iff.mp h with h1 | ⟨u, hu, hadj⟩
    · obtain ⟨j, hj, w⟩ := ih h1
      exact ⟨j, Nat.le_succ_of_le hj, w⟩
    · obtain ⟨j, hj, w⟩ := ih hu
      exact ⟨j + 1, Nat.succ_le_succ hj, Walk.snoc w hadj⟩

theorem mem_ball_of_walk_exact {info : FKInfo} {s t j : Nat} (w : Walk info s t j) :
    t ∈ ball info s j := by
  induction w with
  | nil => exact mem_ball_self info _ 0
  | snoc w' hadj ih => exact mem_ball_succ_iff.mpr (Or.inr ⟨_, ih, hadj⟩)

theorem mem_ball_of_walk {info : FKInfo} {s t j k : Nat} (w : Walk info s t j)
    (h : j ≤ k) : t ∈ ball info s k :=
  ball_mono h (mem_ball_of_walk_exact w)

theorem mem_ball_symm {info : FKInfo} {s t k : Nat} (h : t ∈ ball info s k) :
    s ∈ ball info t k := by
  obtain ⟨j, hj, w⟩ := walk_of_mem_ball h
  exact mem_ball_of_walk w.symm hj

theorem ball_subset_range {info : FKInfo} {s : Nat} (hs : s < nTab info) (k : Nat) :
    ball info s k ⊆ Finset.range (nTab info) := by
  induction k with
  | zero =>
    intro x hx
    simp [ball] at hx
    exact hx ▸ Finset.mem_range.mpr hs
  | succ k ih =>
    intro x hx
    rcases mem_ball_succ_iff.mp hx with h1 | ⟨u, hu, hadj⟩
    · exact ih h1
    · exact Finset.mem_range.mpr (adjMat_lt hadj).2

theorem ball_stab_of_eq {info : FKInfo} {s k : Nat}
    (h : ball info s (k + 1) = ball info s k) :
    ∀ m, ball info s (k + m) = ball info s k := by
  intro m
  induction m with
  | zero => rfl
  | succ m ih =>
    have hdef : ball info s (k + m + 1) =
        ball info s (k + m) ∪ (ball info s (k + m)).biUnion (nbrs info) := rfl
    calc ball info s (k + (m + 1)) = ball info s (k + m + 1) := by ring_nf
      _ = ball info s (k + m) ∪ (ball info s (k + m)).biUnion (nbrs info) := hdef
      _ = ball info s k ∪ (ball info s k).biUnion (nbrs info) := by rw [ih]
      _ = ball info s (k + 1) := rfl
      _ = ball info s k := h

theorem ball_stab (info : FKInfo) {s : Nat} (hs : s < nTab info) (m : Nat) :
    ball info s (nTab info + m) = ball info s (nTab info) := by
  by_cases hex : ∃ k < nTab info, ball info s (k + 1) = ball info s k
  · obtain ⟨k, hk, heq⟩ := hex
    have h1 := ball_stab_of_eq heq
    have e1 : nTab info + m = k + (nTab info + m - k) := by omega
    have e2 : nTab info = k + (nTab info - k) := by omega
    calc ball info s (nTab info + m) = ball info s (k + (nTab info + m - k)) := by rw [← e1]
      _ = ball info s k := h1 _
      _ = ball info s (k + (nTab info - k)) := (h1 _).symm
      _ = ball info s (nTab info) := by rw [← e2]
  · exfalso
    push_neg at hex
    have grow : ∀ k, k ≤ nTab info → k + 1 ≤ (ball info s k).card := by
      intro k
      induction k with
      | zero => intro _; simp [ball]
      | succ k ih =>
        intro hk
        have hne : ball info s (k + 1) ≠ ball info s k := hex k (by omega)
        have hsub : ball info s k ⊆ ball info s (k + 1) := ball_subset_succ info s k
        have hne' : ball info s k ≠ ball info s (k + 1) := fun h => hne h.symm
        have hcard : (ball info s k).card < (ball info s (k + 1)).card :=
          Finset.card_lt_card (Finset.ssubset_iff_subset_ne.mpr ⟨hsub, hne'⟩)
        have ihk := ih (by omega)
        omega
    have h1 := grow (nTab info) (Nat.le_refl _)
    have h2 : (ball info s (nTab info)).card ≤ nTab info := by
      calc (ball info s (nTab info)).card
          ≤ (Finset.range (nTab info)).card :=
            Finset.card_le_card (ball_subset_range hs _)
        _ = nTab info := Finset.card_range _
    omega

theorem mem_ball_nTab_of_walk {info : FKInfo} {s t j : Nat} (w : Walk info s t j)
    (hs : s < nTab info) : t ∈ ball info s (nTab info) := by
  rcases le_or_lt j (nTab info) with h | h
  · exact mem_ball_of_walk w h
  · have hmem : t ∈ ball info s j := mem_ball_of_walk w (Nat.le_refl j)
    have e : j = nTab info + (j - nTab info) := by omega
    rw [e] at hmem
    rwa [ball_stab info hs] at hmem

/-! ### BFS distance and predecessor lemmas -/

theorem distLoop_spec {info : FKInfo} {s t : Nat} :
    ∀ {fuel k d}, distLoop info s t fuel k = some d →
      k ≤ d ∧ d < k + fuel ∧ t ∈ ball info s d ∧
        ∀ j, k ≤ j → j < d → t ∉ ball info s j := by
  intro fuel
  induction fuel with
  | zero => intro k d h; simp [distLoop] at h
  | succ fuel ih =>
    intro k d h
    by_cases hmem : t ∈ ball info s k
    · simp only [distLoop, hmem, if_true, Option.some.injEq] at h
      subst h
      exact ⟨Nat.le_refl k, by omega, hmem, fun j h1 h2 => absurd h1 (by omega)⟩
    · simp only [distLoop, hmem, if_false] at h
      obtain ⟨h1, h2, h3, h4⟩ := ih h
      refine ⟨by omega, by omega, h3, ?_⟩
      intro j hj1 hj2
      rcases Nat.eq_or_lt_of_le hj1 with heq | hlt
      · exact heq ▸ hmem
      · exact h4 j (by omega) hj2

theorem distLoop_of_mem {info : FKInfo} {s t : Nat} :
    ∀ {fuel k k'}, t ∈ ball info s k' → k ≤ k' → k' < k + fuel →
      ∃ d, distLoop info s t fuel k = some d ∧ d ≤ k' := by
  intro fuel
  induction fuel with
  | zero => intro k k' _ h1 h2; exfalso; omega
  | succ fuel ih =>
    intro k k' hmem hk1 hk2
    by_cases hm : t ∈ ball info s k
    · exact ⟨k, by simp [distLoop, hm], hk1⟩
    · have hne : k ≠ k' := fun h => hm (h ▸ hmem)
      obtain ⟨d, hd, hdle⟩ := @ih (k + 1) k' hmem (by omega) (by omega)
      exact ⟨d, by simp [distLoop, hm, hd], hdle⟩

theorem distB_spec {info : FKInfo} {s t d : Nat} (h : distB info s t = some d) :
    t ∈ ball info s d ∧ d ≤ nTab info ∧ ∀ j < d, t ∉ ball info s j := by
  obtain ⟨h1, h2, h3, h4⟩ := distLoop_spec h
  exact ⟨h3, by omega, fun j hj => h4 j (Nat.zero_le j) hj⟩

theorem distB_of_mem {info : FKInfo} {s t : Nat} (h : t ∈ ball info s (nTab info)) :
    ∃ d, distB info s t = some d ∧ d ≤ nTab info := by
  obtain ⟨d, hd, hle⟩ :=
    @distLoop_of_mem info s t (nTab info + 1) 0 (nTab info) h (Nat.zero_le _) (by omega)
  exact ⟨d, hd, hle⟩

theorem distB_self (info : FKInfo) (s : Nat) : distB info s s = some 0 := by
  unfold distB
  simp [distLoop, mem_ball_self]

theorem distB_symm {info : FKInfo} {s t d : Nat} (h : distB info s t = some d) :
    distB info t s = some d := by
  obtain ⟨hmem, hdn, hmin⟩ := distB_spec h
  have hmem' : s ∈ ball info t d := mem_ball_symm hmem
  obtain ⟨d', hd', hle'⟩ := distB_of_mem (ball_mono hdn hmem')
  obtain ⟨hm2, _, hmin2⟩ := distB_spec hd'
  have hd'le : d' ≤ d := by
    by_contra hlt
    push_neg at hlt
    exact hmin2 d hlt hmem'
  have hdle : d ≤ d' := by
    by_contra hlt
    push_neg at hlt
    exact hmin d' hlt (mem_ball_symm hm2)
  rw [hd', Nat.le_antisymm hd'le hdle]

theorem find?_exists {α : Type} {p : α → Bool} {l : List α}
    (h : ∃ x ∈ l, p x = true) : ∃ y, l.find? p = some y ∧ p y = true := by
  induction l with
  | nil => simp at h
  | cons a l ih =>
    by_cases ha : p a = true
    · exact ⟨a, by simp [List.find?, ha], ha⟩
    · obtain ⟨x, hx, hpx⟩ := h
      rcases List.mem_cons.mp hx with rfl | hmem
      · exact absurd hpx ha
      · obtain ⟨y, hy, hpy⟩ := ih ⟨x, hmem, hpx⟩
        refine ⟨y, ?_, hpy⟩
        simp only [List.find?]
        rw [Bool.of_not_eq_true ha]
        exact hy

/-- predB of a non-source node with finite distance d: it exists, is a
neighbour of t, sits exactly one level closer to the source, and differs
from t.  Needs s < n so the level-(d-1) witness is inside range n. -/
theorem predB_spec {info : FKInfo} {s t d : Nat} (hts : t ≠ s)
    (hs : s < nTab info) (h : distB info s t = some d) :
    ∃ u, predB info s t = some u ∧ u < nTab info ∧ adjMat info u t ≠ 0 ∧
      distB info s u = some (d - 1) ∧ u ≠ t ∧ 1 ≤ d := by
  obtain ⟨hmem, hdn, hmin⟩ := distB_spec h
  have hd1 : 1 ≤ d := by
    rcases Nat.eq_zero_or_pos d with rfl | hpos
    · exfalso
      simp [ball] at hmem
      exact hts hmem
    · exact hpos
  have hnot : t ∉ ball info s (d - 1) := hmin (d - 1) (by omega)
  have hdec : t ∈ ball info s ((d - 1) + 1) := by
    have : (d - 1) + 1 = d := by omega
    rw [this]; exact hmem
  rcases mem_ball_succ_iff.mp hdec with hcon | ⟨u, hu, hadj⟩
  · exact absurd hcon hnot
  · have hun : u < nTab info := Finset.mem_range.mp (ball_subset_range hs _ hu)
    have hex : ∃ x ∈ List.range (nTab info),
        (decide (x ∈ ball info s (d - 1)) && decide (adjMat info x t ≠ 0)) = true := by
      refine ⟨u, List.mem_range.mpr hun, ?_⟩
      simp [hu, hadj]
    obtain ⟨y, hy, hpy⟩ := find?_exists hex
    simp only [Bool.and_eq_true, decide_eq_true_eq] at hpy
    obtain ⟨hyb, hyadj⟩ := hpy
    have hfind : predB info s t = some y := by
      unfold predB
      rw [if_neg hts, h]
      exact hy
    have hyn : y < nTab info := Finset.mem_range.mp (ball_subset_range hs _ hyb)
    obtain ⟨dy, hdy, hdyle⟩ := distB_of_mem (ball_mono (by omega : d - 1 ≤ nTab info) hyb)
    obtain ⟨hymem, _, hymin⟩ := distB_spec hdy
    have hdy_le : dy ≤ d - 1 := by
      by_contra hlt
      push_neg at hlt
      exact hymin (d - 1) hlt hyb
    have hdy_ge : d - 1 ≤ dy := by
      by_contra hlt
      push_neg at hlt
      have htmem : t ∈ ball info s (dy + 1) :=
        mem_ball_succ_iff.mpr (Or.inr ⟨y, hymem, hyadj⟩)
      exact hmin (dy + 1) (by omega) htmem
    have hdyd : dy = d - 1 := Nat.le_antisymm hdy_le hdy_ge
    have hyt : y ≠ t := by
      intro hcon
      subst hcon
      exact hnot hyb
    exact ⟨y, hfind, hyn, hyadj, hdyd ▸ hdy, hyt, hd1⟩

/-- Everything predB = some u implies, without assuming how it was found. -/
theorem predB_some_spec {info : FKInfo} {s t u : Nat} (hs : s < nTab info)
    (h : predB info s t = some u) :
    adjMat info u t ≠ 0 ∧ u ≠ t ∧ u < nTab info ∧ t ≠ s ∧
      ∃ d, distB info s t = some d ∧ distB info s u = some (d - 1) ∧ 1 ≤ d := by
  have hts : t ≠ s := by
    intro hcon
    subst hcon
    simp [predB] at h
  cases hdist : distB info s t with
  | none =>
    exfalso
    unfold predB at h
    rw [if_neg hts, hdist] at h
    simp at h
  | some d =>
    obtain ⟨u', hu', hn', hadj', hd', hut', hd1'⟩ := predB_spec hts hs hdist
    rw [h] at hu'
    injection hu' with hh
    subst hh
    exact ⟨hadj', hut', hn', hts, d, rfl, hd', hd1'⟩

/-! ### Component label lemmas -/

theorem comps_self_mem (info : FKInfo) (i : Nat) :
    comps info i = i ∨ comps info i ∈ ball info i (nTab info) := by
  have := Finset.min'_mem (insert i (ball info i (nTab info)))
    (Finset.insert_nonempty i _)
  rcases Finset.mem_insert.mp this with h | h
  · exact Or.inl h
  · exact Or.inr h

theorem walk_comps (info : FKInfo) (i : Nat) :
    ∃ j ≤ nTab info, Walk info i (comps info i) j := by
  rcases comps_self_mem info i with h | h
  · exact ⟨0, Nat.zero_le _, by rw [h]; exact Walk.nil i⟩
  · exact walk_of_mem_ball h

/-- Equal component labels mean connected: the defining property the code
relies on when it compares `components[i]` entries. -/
theorem comps_eq_reach {info : FKInfo} {i j : Nat} (hi : i < nTab info)
    (_hj : j < nTab info) (h : comps info i = comps info j) :
    j ∈ ball info i (nTab info) := by
  obtain ⟨a, _, wi⟩ := walk_comps info i
  obtain ⟨b, _, wj⟩ := walk_comps info j
  rw [h] at wi
  exact mem_ball_nTab_of_walk (wi.append wj.symm) hi

/-! ### Consecutive-pair lemmas -/

theorem cpairs_cons₂ {α : Type} (a b : α) (l : List α) :
    cpairs (a :: b :: l) = (a, b) :: cpairs (b :: l) := rfl

theorem cpairs_snoc {α : Type} : ∀ (l : List α) (a : α),
    cpairs (l ++ [a]) =
      cpairs l ++ (match l.getLast? with | none => [] | some b => [(b, a)]) := by
  intro l a
  induction l with
  | nil => rfl
  | cons x l ih =>
    cases l with
    | nil => rfl
    | cons y l' =>
      calc cpairs ((x :: y :: l') ++ [a])
          = (x, y) :: cpairs ((y :: l') ++ [a]) := rfl
        _ = (x, y) :: (cpairs (y :: l') ++
              (match (y :: l').getLast? with | none => [] | some b => [(b, a)])) := by
            rw [ih]
        _ = cpairs (x :: y :: l') ++
              (match (x :: y :: l').getLast? with | none => [] | some b => [(b, a)]) := by
            simp [cpairs_cons₂]

theorem cpairs_reverse {α : Type} : ∀ (l : List α),
    cpairs l.reverse = ((cpairs l).map (fun p => (p.2, p.1))).reverse := by
  intro l
  induction l with
  | nil => rfl
  | cons a l ih =>
    cases l with
    | nil => rfl
    | cons y l' =>
      have hrev : (a :: y :: l').reverse = (y :: l').reverse ++ [a] := by
        simp
      rw [hrev, cpairs_snoc, ih]
      have hlast : (y :: l').reverse.getLast? = some y := by
        rw [List.getLast?_reverse]
        rfl
      rw [hlast]
      simp [cpairs_cons₂]

theorem mem_cpairs_fst_snd {α : Type} : ∀ {l : List α} {p : α × α},
    p ∈ cpairs l → p.1 ∈ l ∧ p.2 ∈ l := by
  intro l
  induction l with
  | nil => intro p h; simp [cpairs] at h
  | cons a l ih =>
    intro p h
    cases l with
    | nil => simp [cpairs] at h
    | cons b l' =>
      rw [cpairs_cons₂] at h
      rcases List.mem_cons.mp h with heq | hmem
      · have h1 : p.1 = a := congrArg Prod.fst heq
        have h2 : p.2 = b := congrArg Prod.snd heq
        rw [h1, h2]
        exact ⟨List.mem_cons_self _ _, List.mem_cons_of_mem _ (List.mem_cons_self _ _)⟩
      · obtain ⟨hx, hy⟩ := ih hmem
        exact ⟨List.mem_cons_of_mem _ hx, List.mem_cons_of_mem _ hy⟩

/-! ### Reconstruction lemmas -/

theorem reconstruct_path_eq (pred : Nat → Option Nat) (s t fuel : Nat) :
    reconstruct_path pred s t fuel = s :: (reconLoop pred s fuel t).reverse := by
  simp [reconstruct_path]

/-- Main induction on the predecessor chain: along the collected list
(with the source appended) the BFS levels count down from d to 0, and
every consecutive pair is a predecessor link. -/
theorem reconLoop_dists {info : FKInfo} {s : Nat} (hs : s < nTab info) :
    ∀ {fuel t d}, distB info s t = some d → d < fuel →
      ((reconLoop (predB info s) s fuel t ++ [s]).map (fun x => distB info s x)
          = (List.range (d + 1)).reverse.map some) ∧
      (∀ xy ∈ cpairs (reconLoop (predB info s) s fuel t ++ [s]),
          predB info s xy.1 = some xy.2) := by
  intro fuel
  induction fuel with
  | zero => intro t d _ h2; exact absurd h2 (by omega)
  | succ fuel ih =>
    intro t d hd hlt
    by_cases hts : t = s
    · have h0 : d = 0 := by
        rw [hts, distB_self info s] at hd
        injection hd with hh
        omega
      subst h0
      rw [hts]
      constructor
      · simp [reconLoop, distB_self info s]
        decide
      · simp [reconLoop, cpairs]
    · obtain ⟨u, hu, hun, hadj, hdu, hut, hd1⟩ := predB_spec hts hs hd
      have hrec : reconLoop (predB info s) s (fuel + 1) t
          = t :: reconLoop (predB info s) s fuel u := by
        simp [reconLoop, hts, hu]
      obtain ⟨ih1, ih2⟩ := ih hdu (by omega)
      constructor
      · rw [hrec]
        simp only [List.cons_append, List.map_cons]
        rw [ih1, hd]
        have he : d - 1 + 1 = d := by omega
        rw [he]
        rw [List.range_succ]
        simp
      · rw [hrec]
        cases hL : reconLoop (predB info s) s fuel u with
        | nil =>
          have hdd : d = 1 := by
            rw [hL] at ih1
            have hlen := congrArg List.length ih1
            simp at hlen
            omega
          have hus : u = s := by
            have h0 : d - 1 = 0 := by omega
            rw [h0] at hdu
            obtain ⟨hmem, _, _⟩ := distB_spec hdu
            simpa [ball] using hmem
          intro xy hxy
          have hxy2 : xy ∈ [(t, s)] := hxy
          rcases List.mem_cons.mp hxy2 with heq | hmem
          · subst heq
            rw [hus] at hu
            exact hu
          · simp at hmem
        | cons y rest =>
          have hy : y = u := by
            cases fuel with
            | zero => simp [reconLoop] at hL
            | succ f =>
              by_cases hus : u = s
              · simp [reconLoop, hus] at hL
              · simp only [reconLoop, hus, if_false] at hL
                injection hL with h1 _
                exact h1.symm
          subst hy
          intro xy hxy
          have hxy2 : xy ∈ (t, y) :: cpairs (y :: (rest ++ [s])) := hxy
          rcases List.mem_cons.mp hxy2 with heq | hmem
          · subst heq
            exact hu
          · rw [hL] at ih2
            exact ih2 xy hmem

theorem reconstruct_path_length {info : FKInfo} {s t d fuel : Nat} (hs : s < nTab info)
    (hd : distB info s t = some d) (hlt : d < fuel) :
    (reconstruct_path (predB info s) s t fuel).length = d + 1 := by
  obtain ⟨h1, _⟩ := reconLoop_dists hs hd hlt
  have hlen := congrArg List.length h1
  simp only [List.length_map, List.length_append, List.length_cons, List.length_nil,
    List.length_reverse, List.length_range] at hlen
  unfold reconstruct_path
  simp only [List.length_reverse, List.length_append, List.length_cons, List.length_nil]
  omega

theorem reconstruct_path_pairs {info : FKInfo} {s t d fuel : Nat} (hs : s < nTab info)
    (hd : distB info s t = some d) (hlt : d < fuel) :
    ∀ xy ∈ cpairs (reconstruct_path (predB info s) s t fuel),
      predB info s xy.2 = some xy.1 := by
  obtain ⟨_, h2⟩ := reconLoop_dists hs hd hlt
  intro xy hxy
  unfold reconstruct_path at hxy
  rw [cpairs_reverse, List.mem_reverse] at hxy
  obtain ⟨pq, hpq, heq⟩ := List.mem_map.mp hxy
  have e1 : xy.1 = pq.2 := by rw [← heq]
  have e2 : xy.2 = pq.1 := by rw [← heq]
  rw [e1, e2]
  exact h2 pq hpq

theorem reconstruct_path_nodup {info : FKInfo} {s t d fuel : Nat} (hs : s < nTab info)
    (hd : distB info s t = some d) (hlt : d < fuel) :
    (reconstruct_path (predB info s) s t fuel).Nodup := by
  obtain ⟨h1, _⟩ := reconLoop_dists hs hd hlt
  unfold reconstruct_path
  rw [List.nodup_reverse]
  have hmapnd : ((reconLoop (predB info s) s fuel t ++ [s]).map
      (fun x => distB info s x)).Nodup := by
    rw [h1]
    exact List.Nodup.map (Option.some_injective _)
      (List.nodup_reverse.mpr (List.nodup_range _))
  exact List.Nodup.of_map _ hmapnd

/-- Combined facts about a consecutive pair of a reconstructed shortest
path: it is a graph edge between two distinct valid indices. -/
theorem reconstruct_path_pair_facts {info : FKInfo} {s t d fuel : Nat}
    (hs : s < nTab info) (hd : distB info s t = some d) (hlt : d < fuel) :
    ∀ xy ∈ cpairs (reconstruct_path (predB info s) s t fuel),
      adjMat info xy.1 xy.2 ≠ 0 ∧ xy.1 ≠ xy.2 ∧
        xy.1 < nTab info ∧ xy.2 < nTab info := by
  intro xy hxy
  have hpred := reconstruct_path_pairs hs hd hlt xy hxy
  obtain ⟨hadj, hne, hun, _, _⟩ := predB_some_spec hs hpred
  exact ⟨hadj, hne, hun, (adjMat_lt hadj).2⟩

/-! ### Materializer lemmas -/

theorem mem_edgeConstraints {info : FKInfo} {a b : String} {c : ForeignKeyConstraint} :
    c ∈ edgeConstraints info a b ↔ c ∈ validCons info ∧ pairMatches c a b = true := by
  simp [edgeConstraints, List.mem_filter]

theorem pairMatches_iff {c : ForeignKeyConstraint} {a b : String} :
    pairMatches c a b = true ↔
      (c.from_table = a ∧ c.to_table = b) ∨ (c.from_table = b ∧ c.to_table = a) := by
  simp [pairMatches, Bool.or_eq_true, Bool.and_eq_true, beq_iff_eq]

theorem orientOne_fields (a b : String) (c : ForeignKeyConstraint) :
    (orientOne a b c).left_table = a ∧ (orientOne a b c).right_table = b := by
  unfold orientOne
  split <;> exact ⟨rfl, rfl⟩

theorem orientLoop_shape {a b : String} : ∀ {cs : List ForeignKeyConstraint} {st : JoinStep},
    orientLoop a b cs = some st → st.left_table = a ∧ st.right_table = b := by
  intro cs
  induction cs with
  | nil => intro st h; simp [orientLoop] at h
  | cons c rest ih =>
    intro st h
    by_cases h1 : c.from_table = a ∧ c.to_table = b
    · simp only [orientLoop] at h
      rw [if_pos h1] at h
      injection h with h'
      rw [← h']
      exact ⟨rfl, rfl⟩
    · by_cases h2 : c.from_table = b ∧ c.to_table = a
      · simp only [orientLoop] at h
        rw [if_neg h1, if_pos h2] at h
        injection h with h'
        rw [← h']
        exact ⟨rfl, rfl⟩
      · simp only [orientLoop] at h
        rw [if_neg h1, if_neg h2] at h
        exact ih h

theorem orientLoop_first {a b : String} {c : ForeignKeyConstraint}
    (rest : List ForeignKeyConstraint) (hmatch : pairMatches c a b = true) :
    orientLoop a b (c :: rest) = some (orientOne a b c) := by
  by_cases h1 : c.from_table = a ∧ c.to_table = b
  · simp only [orientLoop, orientOne]
    rw [if_pos h1, if_pos h1]
  · rcases pairMatches_iff.mp hmatch with hc | h2
    · exact absurd hc h1
    · simp only [orientLoop, orientOne]
      rw [if_neg h1, if_pos h2, if_neg h1]

theorem edge_to_step_eq_first {info : FKInfo} {u v : Nat}
    {c : ForeignKeyConstraint} {rest : List ForeignKeyConstraint}
    (h : edgeConstraints info (info.tables.getD u "") (info.tables.getD v "")
        = c :: rest) :
    edge_to_step info u v =
      Except.ok (orientOne (info.tables.getD u "") (info.tables.getD v "") c) := by
  have hmem : c ∈ edgeConstraints info (info.tables.getD u "") (info.tables.getD v "") := by
    rw [h]; exact List.mem_cons_self _ _
  have hmatch := (mem_edgeConstraints.mp hmem).2
  simp only [edge_to_step]
  rw [h, orientLoop_first rest hmatch]

/-- An edge of the adjacency matrix always materializes: the constraint
registry holds a matching constraint for the unordered pair of names and
the one-pass orientation loop accepts its first element. -/
theorem edge_to_step_ok {info : FKInfo} {u v : Nat} (hadj : adjMat info u v ≠ 0) :
    ∃ st, edge_to_step info u v = Except.ok st ∧
      st.left_table = info.tables.getD u "" ∧
      st.right_table = info.tables.getD v "" := by
  obtain ⟨c, hc, hor⟩ := adjMat_ne_zero_iff.mp hadj
  obtain ⟨hfmem, htmem⟩ := validCons_tables hc
  have hmatch : pairMatches c (info.tables.getD u "") (info.tables.getD v "") = true := by
    rcases hor with ⟨e1, e2⟩ | ⟨e1, e2⟩
    · refine pairMatches_iff.mpr (Or.inl ⟨?_, ?_⟩)
      · rw [← e1]; exact (getD_idxOf hfmem).symm
      · rw [← e2]; exact (getD_idxOf htmem).symm
    · refine pairMatches_iff.mpr (Or.inr ⟨?_, ?_⟩)
      · rw [← e1]; exact (getD_idxOf hfmem).symm
      · rw [← e2]; exact (getD_idxOf htmem).symm
  have hne : edgeConstraints info (info.tables.getD u "") (info.tables.getD v "") ≠ [] := by
    intro hnil
    have hmem : c ∈ edgeConstraints info (info.tables.getD u "") (info.tables.getD v "") :=
      mem_edgeConstraints.mpr ⟨hc, hmatch⟩
    rw [hnil] at hmem
    simp at hmem
  obtain ⟨c0, rest, hcs⟩ := List.exists_cons_of_ne_nil hne
  refine ⟨orientOne (info.tables.getD u "") (info.tables.getD v "") c0,
    edge_to_step_eq_first hcs, (orientOne_fields _ _ _).1, (orientOne_fields _ _ _).2⟩

/-! ### mapE lemmas -/

theorem mapE_ok_forall {f : Nat × Nat → Except String JoinStep} :
    ∀ {l res}, mapE f l = Except.ok res → ∀ st ∈ res, ∃ xy ∈ l, f xy = Except.ok st := by
  intro l
  induction l with
  | nil =>
    intro res h st hst
    simp only [mapE] at h
    injection h with h'
    rw [← h'] at hst
    simp at hst
  | cons x xs ih =>
    intro res h st hst
    cases hfx : f x with
    | error e => simp [mapE, hfx] at h
    | ok y =>
      cases hrest : mapE f xs with
      | error e => simp [mapE, hfx, hrest] at h
      | ok ys =>
        simp only [mapE, hfx, hrest] at h
        injection h with h'
        rw [← h'] at hst
        rcases List.mem_cons.mp hst with rfl | hmem
        · exact ⟨x, List.mem_cons_self _ _, hfx⟩
        · obtain ⟨xy, hxy, hf⟩ := ih hrest st hmem
          exact ⟨xy, List.mem_cons_of_mem _ hxy, hf⟩

theorem mapE_length {f : Nat × Nat → Except String JoinStep} :
    ∀ {l res}, mapE f l = Except.ok res → res.length = l.length := by
  intro l
  induction l with
  | nil =>
    intro res h
    simp only [mapE] at h
    injection h with h'
    rw [← h']
    rfl
  | cons x xs ih =>
    intro res h
    cases hfx : f x with
    | error e => simp [mapE, hfx] at h
    | ok y =>
      cases hrest : mapE f xs with
      | error e => simp [mapE, hfx, hrest] at h
      | ok ys =>
        simp only [mapE, hfx, hrest] at h
        injection h with h'
        rw [← h']
        simp [ih hrest]

theorem mapE_all_ok {f : Nat × Nat → Except String JoinStep} :
    ∀ {l}, (∀ xy ∈ l, ∃ st, f xy = Except.ok st) → ∃ res, mapE f l = Except.ok res := by
  intro l
  induction l with
  | nil => intro _; exact ⟨[], rfl⟩
  | cons x xs ih =>
    intro hall
    obtain ⟨y, hy⟩ := hall x (List.mem_cons_self _ _)
    obtain ⟨ys, hys⟩ := ih (fun xy hxy => hall xy (List.mem_cons_of_mem _ hxy))
    exact ⟨y :: ys, by simp [mapE, hy, hys]⟩

/-! ### More list helpers -/

theorem cpairs_length {α : Type} (l : List α) : (cpairs l).length = l.length - 1 := by
  simp [cpairs, List.length_zip, List.length_tail]

theorem mem_dedupFirstAux {α : Type} [DecidableEq α] :
    ∀ {l seen : List α} {x : α}, x ∈ dedupFirstAux seen l ↔ x ∈ l ∧ x ∉ seen := by
  intro l
  induction l with
  | nil => intro seen x; simp [dedupFirstAux]
  | cons a l ih =>
    intro seen x
    by_cases ha : a ∈ seen
    · simp only [dedupFirstAux, ha, if_true]
      rw [ih]
      constructor
      · intro ⟨h1, h2⟩
        exact ⟨List.mem_cons_of_mem _ h1, h2⟩
      · intro ⟨h1, h2⟩
        rcases List.mem_cons.mp h1 with rfl | hmem
        · exact absurd ha h2
        · exact ⟨hmem, h2⟩
    · simp only [dedupFirstAux, ha, if_false]
      constructor
      · intro h
        rcases List.mem_cons.mp h with rfl | hmem
        · exact ⟨List.mem_cons_self _ _, ha⟩
        · obtain ⟨h1, h2⟩ := ih.mp hmem
          refine ⟨List.mem_cons_of_mem _ h1, ?_⟩
          intro hcon
          exact h2 (List.mem_cons_of_mem _ hcon)
      · intro ⟨h1, h2⟩
        rcases List.mem_cons.mp h1 with rfl | hmem
        · exact List.mem_cons_self _ _
        · by_cases hxa : x = a
          · subst hxa; exact List.mem_cons_self _ _
          · refine List.mem_cons_of_mem _ (ih.mpr ⟨hmem, ?_⟩)
            intro hcon
            rcases List.mem_cons.mp hcon with h | h
            · exact hxa h
            · exact h2 h

theorem mem_dedupFirst {α : Type} [DecidableEq α] {l : List α} {x : α} :
    x ∈ dedupFirst l ↔ x ∈ l := by
  unfold dedupFirst
  rw [mem_dedupFirstAux]
  simp

theorem two_mem_length {α : Type} {l : List α} {a b : α} (hab : a ≠ b)
    (ha : a ∈ l) (hb : b ∈ l) : 2 ≤ l.length := by
  induction l with
  | nil => simp at ha
  | cons x l ih =>
    rcases List.mem_cons.mp ha with rfl | hma
    · rcases List.mem_cons.mp hb with rfl | hmb
      · exact absurd rfl hab
      · have : 1 ≤ l.length := List.length_pos.mpr (List.ne_nil_of_mem hmb)
        simp only [List.length_cons]
        omega
    · have : 1 ≤ l.length := List.length_pos.mpr (List.ne_nil_of_mem hma)
      simp only [List.length_cons]
      omega

theorem natSum_indicator {α : Type} (p : α → Bool) :
    ∀ (l : List α), (l.map (fun c => if p c = true then (1 : Nat) else 0)).sum
      = (l.filter p).length := by
  intro l
  induction l with
  | nil => rfl
  | cons a l ih =>
    by_cases ha : p a = true
    · simp [ha, ih]
      omega
    · simp [ha, ih, List.filter_cons]

theorem natSum_indicator₂ {α : Type} (p : α → Bool) :
    ∀ (l : List α), (l.map (fun c => if p c = true then (2 : Nat) else 0)).sum
      = 2 * (l.filter p).length := by
  intro l
  induction l with
  | nil => rfl
  | cons a l ih =>
    by_cases ha : p a = true
    · simp [ha, ih, List.filter_cons]
      omega
    · simp [ha, ih, List.filter_cons]

theorem flatMap_congr {α β : Type} {l : List α} {f g : α → List β}
    (h : ∀ x ∈ l, f x = g x) : l.flatMap f = l.flatMap g := by
  induction l with
  | nil => rfl
  | cons a l ih =>
    simp only [List.flatMap_cons]
    rw [h a (List.mem_cons_self _ _), ih (fun x hx => h x (List.mem_cons_of_mem _ hx))]

theorem filterMap_erase_none {α β : Type} [DecidableEq α] {f : α → Option β} {x : α}
    (hx : f x = none) : ∀ (l : List α), (l.erase x).filterMap f = l.filterMap f := by
  intro l
  induction l with
  | nil => rfl
  | cons a l ih =>
    by_cases hax : a = x
    · subst hax
      rw [List.erase_cons_head]
      simp [List.filterMap_cons, hx]
    · rw [List.erase_cons_tail]
      · simp only [List.filterMap_cons]
        cases f a with
        | none => exact ih
        | some b => rw [ih]
      · simp [hax]

/-! ### Claim theorems -/

/-- C4: on the concrete shop schema (orders, customers, products,
order_items with FKs orders.customer_id → customers.id,
order_items.order_id → orders.id, order_items.product_id → products.id),
`shortest_join_path(orders, products)` returns exactly the two steps
orders↔order_items then order_items↔products, with column pairs stating
orders.id = order_items.order_id (the reversed order_items→orders
constraint) and order_items.product_id = products.id. -/
theorem shop_shortest_path_orders_products :
    shortest_join_path exInfoShop "orders" "products" =
      Except.ok [⟨"orders", "order_items", [("id", "order_id")], some "fk_oi_o"⟩,
        ⟨"order_items", "products", [("product_id", "id")], some "fk_oi_p"⟩] := by
  rfl

/-- C7: for any table A known to the provider, `shortest_join_path(A, A)`
succeeds with the empty list of join steps, whether or not A takes part
in any foreign key. -/
theorem shortest_join_path_self {info : FKInfo} {A : String} (hA : A ∈ info.tables) :
    shortest_join_path info A A = Except.ok [] := by
  unfold shortest_join_path
  rw [if_neg (by simp [hA])]
  rw [if_neg (by simp)]
  rw [distB_self]
  simp [steps_from_path, reconstruct_path, reconLoop, cpairs, mapE]

/-- C7 witness: a concrete table of the shop schema. -/
theorem shortest_join_path_self_witness :
    "customers" ∈ exInfoShop.tables ∧
      shortest_join_path exInfoShop "customers" "customers" = Except.ok [] :=
  ⟨by decide, shortest_join_path_self (by decide)⟩

/-- C9 counterexample: a provider record with non-empty
`constrained_columns` but empty `referred_columns` passes every guard of
`_build_snapshot`, and `tuple(zip(cons, refs))` truncates to the empty
tuple — the registry then holds a constraint whose `column_pairs` is
empty, refuting the claim for such providers. -/
theorem recorded_constraint_empty_pairs_cex :
    edgeConstraints exInfoEmptyRefs "a" "b"
        = [⟨some "fk1", "a", "b", []⟩] ∧
      (⟨some "fk1", "a", "b", []⟩ : ForeignKeyConstraint).column_pairs = [] := by
  exact ⟨by rfl, rfl⟩

/-- C9 amended: whenever the provider honours the interface contract that
`referred_columns` is at least as long as `constrained_columns` (the spec
demands equal lengths), every recorded constraint has non-empty
`column_pairs`, because the recording guard already enforces non-empty
`constrained_columns`. -/
theorem recorded_constraint_pairs_nonempty {info : FKInfo}
    (hlen : ∀ t ∈ info.tables, ∀ r ∈ info.fks t,
      r.constrained_columns.length ≤ r.referred_columns.length) :
    ∀ a b c, c ∈ edgeConstraints info a b → c.column_pairs ≠ [] := by
  intro a b c hc
  obtain ⟨t, ht, r, hr, ref, _, _, hcons, _, hceq⟩ :=
    validCons_elim (mem_edgeConstraints.mp hc).1
  subst hceq
  intro hnil
  have hlen' := hlen t ht r hr
  have hzip := congrArg List.length hnil
  simp only [List.length_zip, List.length_nil] at hzip
  have hpos : 0 < r.constrained_columns.length := List.length_pos.mpr hcons
  omega

/-- C9 amended witness: the shop schema obeys the length contract and its
orders↔customers constraint has non-empty column pairs. -/
theorem recorded_constraint_pairs_nonempty_witness :
    (∀ t ∈ exInfoShop.tables, ∀ r ∈ exInfoShop.fks t,
      r.constrained_columns.length ≤ r.referred_columns.length) ∧
    (⟨some "fk_o_c", "orders", "customers", [("customer_id", "id")]⟩ :
        ForeignKeyConstraint).column_pairs ≠ [] :=
  ⟨by decide, @recorded_constraint_pairs_nonempty exInfoShop (by decide) "orders"
    "customers" ⟨some "fk_o_c", "orders", "customers", [("customer_id", "id")]⟩
    (by decide)⟩

/-- C1 counterexample: in `exInfoPair` the pair {a, b} stores the b→a
constraint first (tables are enumerated b before a) and the a→b
constraint second.  `_edge_to_step` called for (left, right) = (a, b)
returns the FIRST constraint reversed (name fk_ba, pairs [("id","b_id")])
even though a constraint with `from_table == left` is stored — its pairs
[("a_ref","bid")] and name fk_ab are not the ones used, refuting the
claim's orientation rule. -/
theorem edge_to_step_first_match_cex :
    edgeConstraints exInfoPair "a" "b" =
        [⟨some "fk_ba", "b", "a", [("b_id", "id")]⟩,
         ⟨some "fk_ab", "a", "b", [("a_ref", "bid")]⟩] ∧
      exInfoPair.tables.getD 1 "" = "a" ∧
      exInfoPair.tables.getD 0 "" = "b" ∧
      edge_to_step exInfoPair 1 0 =
        Except.ok ⟨"a", "b", [("id", "b_id")], some "fk_ba"⟩ ∧
      (⟨some "fk_ab", "a", "b", [("a_ref", "bid")]⟩ :
          ForeignKeyConstraint).from_table = "a" ∧
      (⟨"a", "b", [("id", "b_id")], some "fk_ba"⟩ : JoinStep) ≠
        ⟨"a", "b", [("a_ref", "bid")], some "fk_ab"⟩ := by
  refine ⟨by rfl, rfl, rfl, by rfl, rfl, by decide⟩

/-- C1 amended: `_edge_to_step` materializes the FIRST stored constraint
that connects the pair in either orientation — as-is when its
`from_table` is the left table, reversed when it is the right table; a
stored right→left constraint earlier in the list wins over a later
left→right one. -/
theorem edge_to_step_uses_first_either_orientation {info : FKInfo} {u v : Nat}
    {c : ForeignKeyConstraint} {rest : List ForeignKeyConstraint}
    (h : edgeConstraints info (info.tables.getD u "") (info.tables.getD v "")
        = c :: rest) :
    edge_to_step info u v =
      Except.ok (orientOne (info.tables.getD u "") (info.tables.getD v "") c) :=
  edge_to_step_eq_first h

/-- C1 amended witness: the `exInfoPair` pair, where the first stored
constraint is the b→a one and is used reversed. -/
theorem edge_to_step_uses_first_witness :
    edgeConstraints exInfoPair (exInfoPair.tables.getD 1 "")
        (exInfoPair.tables.getD 0 "")
      = (⟨some "fk_ba", "b", "a", [("b_id", "id")]⟩ : ForeignKeyConstraint)
        :: [⟨some "fk_ab", "a", "b", [("a_ref", "bid")]⟩] ∧
    edge_to_step exInfoPair 1 0 =
      Except.ok (orientOne (exInfoPair.tables.getD 1 "")
        (exInfoPair.tables.getD 0 "") ⟨some "fk_ba", "b", "a", [("b_id", "id")]⟩) :=
  ⟨by rfl, edge_to_step_uses_first_either_orientation (by rfl)⟩

/-- Dropping a record whose reference dangles leaves the recorded
constraint list unchanged. -/
theorem validCons_remove {info : FKInfo} {t : String} {r : FKRecord} {ref : String}
    (href : r.referred_table = some ref) (hne : ref ≠ "")
    (hdang : ref ∉ info.tables) :
    validCons (removeRecord info t r) = validCons info := by
  unfold validCons
  simp only [removeRecord]
  apply flatMap_congr
  intro x _
  by_cases hxt : x = t
  · subst hxt
    rw [if_pos rfl]
    apply filterMap_erase_none
    simp [href, hne, hdang]
  · rw [if_neg hxt]

/-- C5: a foreign key whose referenced table is missing from the table
list is skipped without failing: the pair is reported in the
`missing_refs` diagnostic (surfaced as a warning, not an exception —
snapshot construction here is a total function), removing the dangling
record changes neither the constraint registry nor the adjacency matrix
(the record contributed nothing to either), every recorded constraint
only references known tables, and every valid non-dangling record of the
schema is still recorded under its pair. -/
theorem dangling_reference_skipped {info : FKInfo} {t : String} {r : FKRecord}
    {ref : String} (ht : t ∈ info.tables) (hr : r ∈ info.fks t)
    (href : r.referred_table = some ref) (hne : ref ≠ "")
    (hcons : r.constrained_columns ≠ []) (hdang : ref ∉ info.tables) :
    (t, ref) ∈ missingRefs info ∧
    (∀ a b, edgeConstraints (removeRecord info t r) a b = edgeConstraints info a b) ∧
    (∀ i j, adjMat (removeRecord info t r) i j = adjMat info i j) ∧
    (∀ a b c, c ∈ edgeConstraints info a b →
      c.from_table ∈ info.tables ∧ c.to_table ∈ info.tables) ∧
    (∀ t' ∈ info.tables, ∀ r' ∈ info.fks t', ∀ ref', r'.referred_table = some ref' →
      ref' ≠ "" → r'.constrained_columns ≠ [] → ref' ∈ info.tables →
      (⟨r'.name, t', ref', r'.constrained_columns.zip r'.referred_columns⟩ :
        ForeignKeyConstraint) ∈ edgeConstraints info t' ref') := by
  have hvc := @validCons_remove info t r ref href hne hdang
  refine ⟨?_, ?_, ?_, ?_, ?_⟩
  · simp only [missingRefs, List.mem_flatMap]
    refine ⟨t, ht, ?_⟩
    simp only [List.mem_filterMap]
    exact ⟨r, hr, by simp [href, hne, hcons, hdang]⟩
  · intro a b
    unfold edgeConstraints
    rw [hvc]
  · intro i j
    unfold adjMat
    rw [hvc]
    rfl
  · intro a b c hc
    exact validCons_tables (mem_edgeConstraints.mp hc).1
  · intro t' ht' r' hr' ref' href' hne' hcons' hmem'
    refine mem_edgeConstraints.mpr
      ⟨validCons_of_record ht' hr' href' hne' hcons' hmem', ?_⟩
    exact pairMatches_iff.mpr (Or.inl ⟨rfl, rfl⟩)

/-- C5 witness: the dangling a → ghost key of `exInfoDangling`. -/
theorem dangling_reference_skipped_witness :
    ("a", "ghost") ∈ missingRefs exInfoDangling ∧
      edgeConstraints (removeRecord exInfoDangling "a"
          ⟨some "fk_bad", some "ghost", ["g_id"], ["id"]⟩) "a" "b"
        = edgeConstraints exInfoDangling "a" "b" := by
  have h := @dangling_reference_skipped exInfoDangling "a"
    ⟨some "fk_bad", some "ghost", ["g_id"], ["id"]⟩ "ghost"
    (by decide) (by decide) rfl (by decide) (by decide) (by decide)
  exact ⟨h.1, h.2.1 "a" "b"⟩

theorem idxOf_eq_iff {info : FKInfo} {x y : String} (hx : x ∈ info.tables)
    (hy : y ∈ info.tables) : idxOf info x = idxOf info y ↔ x = y :=
  ⟨idxOf_inj hx hy, fun h => by rw [h]⟩

theorem contrib_eq_indicator_ne {info : FKInfo} {a b : String}
    {c : ForeignKeyConstraint} (ha : a ∈ info.tables) (hb : b ∈ info.tables)
    (hab : a ≠ b) (hc : c ∈ validCons info) :
    ((if idxOf info c.from_table = idxOf info a ∧
        idxOf info c.to_table = idxOf info b then (1 : Nat) else 0) +
     (if idxOf info c.from_table = idxOf info b ∧
        idxOf info c.to_table = idxOf info a then 1 else 0))
      = if pairMatches c a b = true then 1 else 0 := by
  obtain ⟨hf, ht⟩ := validCons_tables hc
  simp only [idxOf_eq_iff hf ha, idxOf_eq_iff ht hb, idxOf_eq_iff hf hb,
    idxOf_eq_iff ht ha, pairMatches_iff]
  by_cases h1 : c.from_table = a ∧ c.to_table = b
    <;> by_cases h2 : c.from_table = b ∧ c.to_table = a
  · exact absurd (h1.1.symm.trans h2.1) hab
  · simp only [h1, h2, if_true, if_false, true_or, if_pos]
    simp
    intro h
    exact absurd h hab
  · simp only [h1, h2, if_false, or_true]
    simp
    intro h
    exact absurd h.symm hab
  · simp [h1, h2]

theorem contrib_eq_indicator_diag {info : FKInfo} {a : String}
    {c : ForeignKeyConstraint} (ha : a ∈ info.tables) (hc : c ∈ validCons info) :
    ((if idxOf info c.from_table = idxOf info a ∧
        idxOf info c.to_table = idxOf info a then (1 : Nat) else 0) +
     (if idxOf info c.from_table = idxOf info a ∧
        idxOf info c.to_table = idxOf info a then 1 else 0))
      = if pairMatches c a a = true then 2 else 0 := by
  obtain ⟨hf, ht⟩ := validCons_tables hc
  simp only [idxOf_eq_iff hf ha, idxOf_eq_iff ht ha, pairMatches_iff]
  by_cases h1 : c.from_table = a ∧ c.to_table = a <;> simp [h1]

theorem adjMat_count {info : FKInfo} {a b : String} (ha : a ∈ info.tables)
    (hb : b ∈ info.tables) (hab : a ≠ b) :
    adjMat info (idxOf info a) (idxOf info b) = (edgeConstraints info a b).length := by
  unfold adjMat edgeConstraints
  rw [← natSum_indicator (fun c => pairMatches c a b) (validCons info)]
  congr 1
  apply List.map_congr_left
  intro c hc
  exact contrib_eq_indicator_ne ha hb hab hc

theorem adjMat_count_diag {info : FKInfo} {a : String} (ha : a ∈ info.tables) :
    adjMat info (idxOf info a) (idxOf info a)
      = 2 * (edgeConstraints info a a).length := by
  unfold adjMat edgeConstraints
  rw [← natSum_indicator₂ (fun c => pairMatches c a a) (validCons info)]
  congr 1
  apply List.map_congr_left
  intro c hc
  exact contrib_eq_indicator_diag ha hc

/-- C3: for every provider, an unordered pair of known tables has a
nonzero adjacency entry exactly when its `edge_constraints` list is
non-empty; the entry counts the recorded constraints of the pair (twice
on the diagonal, matching the two COO entries a self-loop adds), so each
constraint contributes to exactly its own pair; and every well-formed
non-dangling record is recorded under its pair with a nonzero adjacency
entry. -/
theorem snapshot_adjacency_consistency (info : FKInfo) :
    (∀ a ∈ info.tables, ∀ b ∈ info.tables,
      (adjMat info (idxOf info a) (idxOf info b) ≠ 0 ↔
        edgeConstraints info a b ≠ []) ∧
      (a ≠ b → adjMat info (idxOf info a) (idxOf info b)
          = (edgeConstraints info a b).length) ∧
      (a = b → adjMat info (idxOf info a) (idxOf info b)
          = 2 * (edgeConstraints info a b).length)) ∧
    (∀ t ∈ info.tables, ∀ r ∈ info.fks t, ∀ ref, r.referred_table = some ref →
      ref ≠ "" → r.constrained_columns ≠ [] → ref ∈ info.tables →
      (⟨r.name, t, ref, r.constrained_columns.zip r.referred_columns⟩ :
          ForeignKeyConstraint) ∈ edgeConstraints info t ref ∧
        adjMat info (idxOf info t) (idxOf info ref) ≠ 0) := by
  constructor
  · intro a ha b hb
    by_cases hab : a = b
    · subst hab
      refine ⟨?_, fun h => absurd rfl h, fun _ => adjMat_count_diag ha⟩
      rw [adjMat_count_diag ha]
      simp [List.length_eq_zero]
    · refine ⟨?_, fun _ => adjMat_count ha hb hab, fun h => absurd h hab⟩
      rw [adjMat_count ha hb hab]
      simp [List.length_eq_zero]
  · intro t ht r hr ref href hne hcons hmem
    have hec : (⟨r.name, t, ref, r.constrained_columns.zip r.referred_columns⟩ :
        ForeignKeyConstraint) ∈ edgeConstraints info t ref :=
      mem_edgeConstraints.mpr ⟨validCons_of_record ht hr href hne hcons hmem,
        pairMatches_iff.mpr (Or.inl ⟨rfl, rfl⟩)⟩
    refine ⟨hec, ?_⟩
    have hpos : edgeConstraints info t ref ≠ [] := List.ne_nil_of_mem hec
    by_cases htr : t = ref
    · subst htr
      rw [adjMat_count_diag ht]
      simp [List.length_eq_zero, hpos]
    · rw [adjMat_count ht hmem htr]
      simp [List.length_eq_zero, hpos]

/-- C3 witness: the shop schema, at the adjacent pair orders, customers
and the orders → customers record. -/
theorem snapshot_adjacency_consistency_witness :
    adjMat exInfoShop (idxOf exInfoShop "orders") (idxOf exInfoShop "customers")
        = (edgeConstraints exInfoShop "orders" "customers").length ∧
      adjMat exInfoShop (idxOf exInfoShop "orders") (idxOf exInfoShop "customers") ≠ 0 := by
  have h := snapshot_adjacency_consistency exInfoShop
  refine ⟨(h.1 "orders" (by decide) "customers" (by decide)).2.1 (by decide), ?_⟩
  exact (h.2 "orders" (by decide) ⟨some "fk_o_c", some "customers", ["customer_id"], ["id"]⟩
    (by decide) "customers" rfl (by decide) (by decide) (by decide)).2

/-- C6: when two known tables carry different component labels, both
resolvers fail with the no-join-path `ValueError` (an `Except.error`
carrying no step list at all): `shortest_join_path` at its component
check, and `connect_tables` — for any requested list containing the two
tables — at its terminal-component check. -/
theorem no_join_path_across_components {info : FKInfo} {A B : String}
    (hA : A ∈ info.tables) (hB : B ∈ info.tables)
    (hcomp : comps info (idxOf info A) ≠ comps info (idxOf info B)) :
    shortest_join_path info A B = Except.error "No join path between the tables." ∧
    ∀ ts : List String, A ∈ ts → B ∈ ts → (∀ t ∈ ts, t ∈ info.tables) →
      connect_tables info ts = Except.error "No join path connects the tables." := by
  have hAB : A ≠ B := by
    intro h
    subst h
    exact hcomp rfl
  constructor
  · unfold shortest_join_path
    rw [if_neg (by simp [hA, hB])]
    rw [if_pos hcomp]
  · intro ts hAts hBts hknown
    unfold connect_tables
    have hAreq : A ∈ dedupFirst ts := mem_dedupFirst.mpr hAts
    have hBreq : B ∈ dedupFirst ts := mem_dedupFirst.mpr hBts
    have hlen : ¬ (dedupFirst ts).length < 2 := by
      have := two_mem_length hAB hAreq hBreq
      omega
    rw [if_neg hlen]
    have hbad : (dedupFirst ts).filter (fun t => decide (t ∉ info.tables)) = [] := by
      rw [List.filter_eq_nil_iff]
      intro t htmem
      simp [hknown t (mem_dedupFirst.mp htmem)]
    rw [if_neg (by
      simp only [hbad, ne_eq, not_true_eq_false, not_false_eq_true])]
    rw [if_pos ?hany]
    case hany =>
      have hAterm : idxOf info A ∈ (dedupFirst ts).map (idxOf info) :=
        List.mem_map_of_mem _ hAreq
      have hBterm : idxOf info B ∈ (dedupFirst ts).map (idxOf info) :=
        List.mem_map_of_mem _ hBreq
      rw [List.any_eq_true]
      by_cases hA0 : comps info (idxOf info A)
          = comps info (((dedupFirst ts).map (idxOf info)).headD 0)
      · refine ⟨idxOf info B, hBterm, ?_⟩
        simp only [decide_eq_true_eq]
        intro hcon
        exact hcomp (hA0.trans hcon.symm)
      · refine ⟨idxOf info A, hAterm, ?_⟩
        simp only [decide_eq_true_eq]
        exact hA0

/-- C6 witness: the two-component schema a—b, c—d at the pair (a, c). -/
theorem no_join_path_across_components_witness :
    shortest_join_path exInfoSplit "a" "c"
        = Except.error "No join path between the tables." ∧
      connect_tables exInfoSplit ["a", "c"]
        = Except.error "No join path connects the tables." := by
  have h := @no_join_path_across_components exInfoSplit "a" "c"
    (by decide) (by decide) (by decide)
  exact ⟨h.1, h.2 ["a", "c"] (by decide) (by decide) (by decide)⟩

/-- Dissection of a successful `shortest_join_path` call. -/
theorem sjp_ok_elim {info : FKInfo} {A B : String} {steps : List JoinStep}
    (h : shortest_join_path info A B = Except.ok steps) :
    A ∈ info.tables ∧ B ∈ info.tables ∧
      comps info (idxOf info A) = comps info (idxOf info B) ∧
      ∃ d, distB info (idxOf info A) (idxOf info B) = some d ∧
        steps_from_path info (reconstruct_path (predB info (idxOf info A))
          (idxOf info A) (idxOf info B) (nTab info + 1)) = Except.ok steps := by
  unfold shortest_join_path at h
  by_cases hk : ([A, B].filter (fun t => decide (t ∉ info.tables))) ≠ []
  · rw [if_pos hk] at h
    exact absurd h (by simp)
  · rw [if_neg hk] at h
    push_neg at hk
    have hmem : A ∈ info.tables ∧ B ∈ info.tables := by
      rw [List.filter_eq_nil_iff] at hk
      have hA := hk A (by simp)
      have hB := hk B (by simp)
      simp at hA hB
      exact ⟨hA, hB⟩
    by_cases hc : comps info (idxOf info A) ≠ comps info (idxOf info B)
    · rw [if_pos hc] at h
      exact absurd h (by simp)
    · rw [if_neg hc] at h
      push_neg at hc
      cases hd : distB info (idxOf info A) (idxOf info B) with
      | none =>
        rw [hd] at h
        exact absurd h (by simp)
      | some d =>
        rw [hd] at h
        exact ⟨hmem.1, hmem.2, hc, d, rfl, h⟩

theorem steps_from_path_length {info : FKInfo} {p : List Nat} {steps : List JoinStep}
    (h : steps_from_path info p = Except.ok steps) : steps.length = p.length - 1 := by
  unfold steps_from_path at h
  rw [mapE_length h, cpairs_length]

/-- C8: whenever both directed requests succeed, `shortest_join_path`
returns as many steps from A to B as from B to A — the step count is the
BFS level of the target, and BFS levels in the undirected snapshot graph
are symmetric. -/
theorem shortest_join_path_length_symm {info : FKInfo} {A B : String}
    {s1 s2 : List JoinStep}
    (h1 : shortest_join_path info A B = Except.ok s1)
    (h2 : shortest_join_path info B A = Except.ok s2) :
    s1.length = s2.length := by
  obtain ⟨hA, hB, _, d, hd, hsteps⟩ := sjp_ok_elim h1
  obtain ⟨_, _, _, d', hd', hsteps'⟩ := sjp_ok_elim h2
  have hsA : idxOf info A < nTab info := idxOf_lt hA
  have hsB : idxOf info B < nTab info := idxOf_lt hB
  have hdlt : d < nTab info + 1 := by
    have := (distB_spec hd).2.1
    omega
  have hdlt' : d' < nTab info + 1 := by
    have := (distB_spec hd').2.1
    omega
  have hl1 : s1.length = d := by
    rw [steps_from_path_length hsteps, reconstruct_path_length hsA hd hdlt]
    omega
  have hl2 : s2.length = d' := by
    rw [steps_from_path_length hsteps', reconstruct_path_length hsB hd' hdlt']
    omega
  have hsymm := distB_symm hd
  rw [hd'] at hsymm
  injection hsymm with hdd
  rw [hl1, hl2, hdd]

/-- C8 witness: the shop schema in both directions between orders and
products (two steps each way). -/
theorem shortest_join_path_length_symm_witness :
    shortest_join_path exInfoShop "orders" "products" =
      Except.ok [⟨"orders", "order_items", [("id", "order_id")], some "fk_oi_o"⟩,
        ⟨"order_items", "products", [("product_id", "id")], some "fk_oi_p"⟩] ∧
    shortest_join_path exInfoShop "products" "orders" =
      Except.ok [⟨"products", "order_items", [("id", "product_id")], some "fk_oi_p"⟩,
        ⟨"order_items", "orders", [("order_id", "id")], some "fk_oi_o"⟩] ∧
    ([⟨"orders", "order_items", [("id", "order_id")], some "fk_oi_o"⟩,
      ⟨"order_items", "products", [("product_id", "id")], some "fk_oi_p"⟩] :
        List JoinStep).length =
    ([⟨"products", "order_items", [("id", "product_id")], some "fk_oi_p"⟩,
      ⟨"order_items", "orders", [("order_id", "id")], some "fk_oi_o"⟩] :
        List JoinStep).length :=
  ⟨by rfl, by rfl,
    @shortest_join_path_length_symm exInfoShop "orders" "products"
      [⟨"orders", "order_items", [("id", "order_id")], some "fk_oi_o"⟩,
       ⟨"order_items", "products", [("product_id", "id")], some "fk_oi_p"⟩]
      [⟨"products", "order_items", [("id", "product_id")], some "fk_oi_p"⟩,
       ⟨"order_items", "orders", [("order_id", "id")], some "fk_oi_o"⟩]
      (by rfl) (by rfl)⟩

/-! ### Bounds of reconstructed paths and BFS edge output -/

theorem predB_lt {info : FKInfo} {s t p : Nat} (h : predB info s t = some p) :
    p < nTab info := by
  unfold predB at h
  by_cases hts : t = s
  · simp [hts] at h
  · rw [if_neg hts] at h
    cases hd : distB info s t with
    | none => rw [hd] at h; simp at h
    | some d =>
      rw [hd] at h
      have := List.mem_of_find?_eq_some h
      exact List.mem_range.mp this

theorem reconLoop_mem_lt {info : FKInfo} {s : Nat} :
    ∀ {fuel t}, t < nTab info →
      ∀ x ∈ reconLoop (predB info s) s fuel t, x < nTab info := by
  intro fuel
  induction fuel with
  | zero => intro t _ x hx; simp [reconLoop] at hx
  | succ fuel ih =>
    intro t htn x hx
    by_cases hts : t = s
    · simp [reconLoop, hts] at hx
    · simp only [reconLoop, hts, if_false] at hx
      rcases List.mem_cons.mp hx with rfl | hmem
      · exact htn
      · cases hpred : predB info s t with
        | none => rw [hpred] at hmem; simp at hmem
        | some p =>
          rw [hpred] at hmem
          exact ih (predB_lt hpred) x hmem

theorem reconstruct_path_mem_lt {info : FKInfo} {s t fuel : Nat}
    (hs : s < nTab info) (ht : t < nTab info) :
    ∀ x ∈ reconstruct_path (predB info s) s t fuel, x < nTab info := by
  intro x hx
  unfold reconstruct_path at hx
  rw [List.mem_reverse, List.mem_append] at hx
  rcases hx with h1 | h2
  · exact reconLoop_mem_lt ht x h1
  · simp at h2
    exact h2 ▸ hs

theorem getD_lt_of_forall {l : List Nat} {n : Nat} (hall : ∀ x ∈ l, x < n)
    (hn : 0 < n) (k : Nat) : l.getD k 0 < n := by
  by_cases hk : k < l.length
  · rw [List.getD_eq_getElem?_getD, List.getElem?_eq_getElem hk]
    exact hall _ (List.getElem_mem hk)
  · rw [List.getD_eq_getElem?_getD, List.getElem?_eq_none (by omega)]
    exact hn

theorem bfsFold_spec (good : Nat → Prop) (u : Nat) (hgu : good u) :
    ∀ (vs : List Nat), (∀ x ∈ vs, good x) →
      ∀ (acc : List Nat × List Nat × List (Nat × Nat)), bfsAccOK good u acc →
        bfsAccOK good u (vs.foldl
          (fun acc v => if v ∈ acc.1 then acc
            else (v :: acc.1, acc.2.1 ++ [v], acc.2.2 ++ [(u, v)])) acc) := by
  intro vs
  induction vs with
  | nil => intro _ acc hacc; exact hacc
  | cons v vs ih =>
    intro hgood acc hacc
    obtain ⟨hu, hq1, hq2, hout⟩ := hacc
    simp only [List.foldl_cons]
    apply ih (fun x hx => hgood x (List.mem_cons_of_mem _ hx))
    by_cases hv : v ∈ acc.1
    · rw [if_pos hv]
      exact ⟨hu, hq1, hq2, hout⟩
    · rw [if_neg hv]
      refine ⟨List.mem_cons_of_mem _ hu, ?_, ?_, ?_⟩
      · intro x hx
        rcases List.mem_append.mp hx with h1 | h2
        · exact List.mem_cons_of_mem _ (hq1 x h1)
        · simp at h2
          subst h2
          exact List.mem_cons_self _ _
      · intro x hx
        rcases List.mem_append.mp hx with h1 | h2
        · exact hq2 x h1
        · simp at h2
          exact h2 ▸ hgood v (List.mem_cons_self _ _)
      · intro p hp
        rcases List.mem_append.mp hp with h1 | h2
        · exact hout p h1
        · simp at h2
          subst h2
          refine ⟨?_, hgu, hgood v (List.mem_cons_self _ _)⟩
          intro hcon
          have huv : u = v := hcon
          exact hv (huv ▸ hu)

theorem bfsLoop_pairs (good : Nat → Prop) (adjF : Nat → List Nat)
    (hadj : ∀ u x, x ∈ adjF u → good x) :
    ∀ fuel (q seen : List Nat), (∀ x ∈ q, x ∈ seen) → (∀ x ∈ q, good x) →
      ∀ uv ∈ bfsLoop adjF fuel q seen, uv.1 ≠ uv.2 ∧ good uv.1 ∧ good uv.2 := by
  intro fuel
  induction fuel with
  | zero => intro q seen _ _ uv huv; simp [bfsLoop] at huv
  | succ fuel ih =>
    intro q seen hqs hqg uv huv
    cases q with
    | nil => simp [bfsLoop] at huv
    | cons u q' =>
      have hu_seen : u ∈ seen := hqs u (List.mem_cons_self _ _)
      have hu_good : good u := hqg u (List.mem_cons_self _ _)
      have hacc := bfsFold_spec good u hu_good (adjF u) (fun x hx => hadj u x hx)
        (seen, q', []) ⟨hu_seen, fun x hx => hqs x (List.mem_cons_of_mem _ hx),
          fun x hx => hqg x (List.mem_cons_of_mem _ hx), by simp⟩
      simp only [bfsLoop] at huv
      rcases List.mem_append.mp huv with h1 | h2
      · exact hacc.2.2.2 uv h1
      · exact ih _ _ hacc.2.1 hacc.2.2.1 uv h2

theorem steinerEdges_mem_lt {info : FKInfo} {term : List Nat} {mstE : List (Nat × Nat)}
    (hterm : ∀ x ∈ term, x < nTab info) (hn : 0 < nTab info) :
    ∀ uv ∈ steinerEdges info term mstE, uv.1 < nTab info ∧ uv.2 < nTab info := by
  intro uv huv
  unfold steinerEdges at huv
  rw [mem_dedupFirst, List.mem_flatMap] at huv
  obtain ⟨e, _, hmem⟩ := huv
  unfold expandEdge at hmem
  have hsi : term.getD e.1 0 < nTab info := getD_lt_of_forall hterm hn e.1
  have htj : term.getD e.2 0 < nTab info := getD_lt_of_forall hterm hn e.2
  have hpath := @reconstruct_path_mem_lt info (term.getD e.1 0) (term.getD e.2 0)
    (nTab info + 1) hsi htj
  rcases List.mem_append.mp hmem with h1 | h2
  · obtain ⟨hx, hy⟩ := mem_cpairs_fst_snd h1
    exact ⟨hpath _ hx, hpath _ hy⟩
  · obtain ⟨pq, hpq, heq⟩ := List.mem_map.mp h2
    obtain ⟨hx, hy⟩ := mem_cpairs_fst_snd hpq
    have e1 : uv.1 = pq.2 := by rw [← heq]
    have e2 : uv.2 = pq.1 := by rw [← heq]
    rw [e1, e2]
    exact ⟨hpath _ hy, hpath _ hx⟩

theorem edge_to_step_ok_fields {info : FKInfo} {u v : Nat} {st : JoinStep}
    (h : edge_to_step info u v = Except.ok st) :
    st.left_table = info.tables.getD u "" ∧
      st.right_table = info.tables.getD v "" := by
  unfold edge_to_step at h
  simp only [] at h
  cases horient : orientLoop (info.tables.getD u "") (info.tables.getD v "")
      (edgeConstraints info (info.tables.getD u "") (info.tables.getD v "")) with
  | none => rw [horient] at h; simp at h
  | some st' =>
    rw [horient] at h
    injection h with h'
    rw [← h']
    exact orientLoop_shape horient

theorem getD_ne_of_nodup {info : FKInfo} (hnd : info.tables.Nodup) {u v : Nat}
    (hu : u < nTab info) (hv : v < nTab info) (huv : u ≠ v) :
    info.tables.getD u "" ≠ info.tables.getD v "" := by
  intro hcon
  rw [List.getD_eq_getElem?_getD, List.getElem?_eq_getElem hu,
    List.getD_eq_getElem?_getD, List.getElem?_eq_getElem hv] at hcon
  exact huv ((List.Nodup.getElem_inj_iff hnd).mp hcon)

/-- Dissection of a successful `connect_tables` call: the step list comes
from materializing the BFS edge ordering of the Steiner edge set, whose
endpoints (and the BFS start) are valid table indices. -/
theorem ct_ok_elim {info : FKInfo} {ts : List String} {steps : List JoinStep}
    (h : connect_tables info ts = Except.ok steps) :
    ∃ start E, start < nTab info ∧
      (∀ uv ∈ E, uv.1 < nTab info ∧ uv.2 < nTab info) ∧
      mapE (fun uv => edge_to_step info uv.1 uv.2) (bfs_edges_from start E)
        = Except.ok steps := by
  unfold connect_tables at h
  by_cases h1 : (dedupFirst ts).length < 2
  · rw [if_pos h1] at h
    exact absurd h (by simp)
  rw [if_neg h1] at h
  by_cases h2 : ((dedupFirst ts).filter (fun t => decide (t ∉ info.tables))) ≠ []
  · rw [if_pos h2] at h
    exact absurd h (by simp)
  rw [if_neg h2] at h
  push_neg at h2
  rw [List.filter_eq_nil_iff] at h2
  have hknown : ∀ x ∈ dedupFirst ts, x ∈ info.tables := by
    intro x hx
    have := h2 x hx
    simpa using this
  have hterm : ∀ x ∈ (dedupFirst ts).map (idxOf info), x < nTab info := by
    intro x hx
    obtain ⟨y, hy, hxy⟩ := List.mem_map.mp hx
    exact hxy ▸ idxOf_lt (hknown y hy)
  have hn : 0 < nTab info := by
    have hne : dedupFirst ts ≠ [] := by
      intro hcon
      rw [hcon] at h1
      simp at h1
    obtain ⟨y, hy⟩ := List.exists_mem_of_ne_nil _ hne
    exact Nat.lt_of_le_of_lt (Nat.zero_le _) (idxOf_lt (hknown y hy))
  have hstart : ((dedupFirst ts).map (idxOf info)).headD 0 < nTab info := by
    cases hcase : (dedupFirst ts).map (idxOf info) with
    | nil => simpa [hcase] using hn
    | cons a l =>
      have : a ∈ (dedupFirst ts).map (idxOf info) := by
        rw [hcase]; exact List.mem_cons_self _ _
      simpa [hcase] using hterm a this
  by_cases h3 : (((dedupFirst ts).map (idxOf info)).any
      (fun i => comps info i ≠ comps info ((((dedupFirst ts).map (idxOf info))).headD 0))) = true
  · rw [if_pos h3] at h
    exact absurd h (by simp)
  rw [if_neg h3] at h
  by_cases h4 : (!pairsFinite info ((dedupFirst ts).map (idxOf info))) = true
  · rw [if_pos h4] at h
    exact absurd h (by simp)
  rw [if_neg h4] at h
  exact ⟨_, _, hstart, steinerEdges_mem_lt hterm hn, h⟩

/-- C10: with distinct table names, every join step either resolver
returns successfully joins two different tables, even though a
self-referencing foreign key is recorded by the builder as a nonzero
diagonal adjacency entry keyed (in `edge_constraints`) by the singleton
set {t, t} = {t} — the shortest-path reconstruction never repeats a
vertex, and the BFS edge ordering only emits edges towards unseen
vertices. -/
theorem join_steps_distinct_tables {info : FKInfo} (hnd : info.tables.Nodup) :
    (∀ A B steps, shortest_join_path info A B = Except.ok steps →
      ∀ st ∈ steps, st.left_table ≠ st.right_table) ∧
    (∀ ts steps, connect_tables info ts = Except.ok steps →
      ∀ st ∈ steps, st.left_table ≠ st.right_table) ∧
    (∀ t ∈ info.tables, ∀ r ∈ info.fks t, r.referred_table = some t →
      t ≠ "" → r.constrained_columns ≠ [] →
      adjMat info (idxOf info t) (idxOf info t) ≠ 0 ∧
      (⟨r.name, t, t, r.constrained_columns.zip r.referred_columns⟩ :
        ForeignKeyConstraint) ∈ edgeConstraints info t t) := by
  refine ⟨?_, ?_, ?_⟩
  · intro A B steps h st hst
    obtain ⟨hA, hB, _, d, hd, hsteps⟩ := sjp_ok_elim h
    have hsA : idxOf info A < nTab info := idxOf_lt hA
    have hdlt : d < nTab info + 1 := by
      have := (distB_spec hd).2.1
      omega
    unfold steps_from_path at hsteps
    obtain ⟨xy, hxy, hets⟩ := mapE_ok_forall hsteps st hst
    obtain ⟨_, hne, hu, hv⟩ := reconstruct_path_pair_facts hsA hd hdlt xy hxy
    obtain ⟨hl, hr⟩ := edge_to_step_ok_fields hets
    rw [hl, hr]
    exact getD_ne_of_nodup hnd hu hv hne
  · intro ts steps h st hst
    obtain ⟨start, E, hstart, hE, hmap⟩ := ct_ok_elim h
    obtain ⟨xy, hxy, hets⟩ := mapE_ok_forall hmap st hst
    have hpair := bfsLoop_pairs (fun x => x < nTab info) (buildAdj E)
      (fun u x hx => by
        unfold buildAdj at hx
        obtain ⟨e, he, hex⟩ := List.mem_map.mp hx
        exact hex ▸ (hE e (List.mem_of_mem_filter he)).2)
      (2 * E.length + 1) [start] [start] (by simp) (by
        intro x hx
        simp at hx
        subst hx
        exact hstart)
      xy hxy
    obtain ⟨hl, hr⟩ := edge_to_step_ok_fields hets
    rw [hl, hr]
    exact getD_ne_of_nodup hnd hpair.2.1 hpair.2.2 hpair.1
  · intro t ht r hr href hne hcons
    have hec : (⟨r.name, t, t, r.constrained_columns.zip r.referred_columns⟩ :
        ForeignKeyConstraint) ∈ edgeConstraints info t t :=
      mem_edgeConstraints.mpr ⟨validCons_of_record ht hr href hne hcons ht,
        pairMatches_iff.mpr (Or.inl ⟨rfl, rfl⟩)⟩
    refine ⟨?_, hec⟩
    rw [adjMat_count_diag ht]
    simp [List.length_eq_zero, List.ne_nil_of_mem hec]

/-- C10 witness: the self-referencing employees schema, whose connect and
shortest-path results only join employees with depts. -/
theorem join_steps_distinct_tables_witness :
    exInfoSelf.tables.Nodup ∧
      shortest_join_path exInfoSelf "employees" "depts" =
        Except.ok [⟨"employees", "depts", [("dept_id", "id")], some "fk_dep"⟩] ∧
      ("employees" : String) ≠ "depts" := by
  refine ⟨by decide, by rfl, ?_⟩
  exact (@join_steps_distinct_tables exInfoSelf (by decide)).1 "employees"
    "depts" [⟨"employees", "depts", [("dept_id", "id")], some "fk_dep"⟩] (by rfl)
    ⟨"employees", "depts", [("dept_id", "id")], some "fk_dep"⟩
    (List.mem_singleton.mpr rfl)

/-! ### Path edge-set lemmas for the two-terminal Steiner expansion -/

theorem cpairs_nodup {α : Type} {l : List α} (hnd : l.Nodup) : (cpairs l).Nodup := by
  have hlen : l.tail.length ≤ l.length := by
    cases l <;> simp
  have hsnd : (cpairs l).map Prod.snd = l.tail := List.map_snd_zip l l.tail hlen
  have htail : l.tail.Nodup := by
    cases l with
    | nil => simp
    | cons a l' => exact (List.nodup_cons.mp hnd).2
  exact List.Nodup.of_map Prod.snd (hsnd ▸ htail)

theorem mem_cpairs_snd_tail {α : Type} : ∀ {l : List α} {p : α × α},
    p ∈ cpairs l → p.2 ∈ l.tail := by
  intro l
  induction l with
  | nil => intro p h; simp [cpairs] at h
  | cons a l ih =>
    intro p h
    cases l with
    | nil => simp [cpairs] at h
    | cons b l' =>
      rw [cpairs_cons₂] at h
      rcases List.mem_cons.mp h with heq | hmem
      · have h2 : p.2 = b := congrArg Prod.snd heq
        rw [h2]
        exact List.mem_cons_self _ _
      · exact List.mem_cons_of_mem _ (ih hmem)

theorem cpairs_mem_index {α : Type} : ∀ {l : List α} {x y : α},
    (x, y) ∈ cpairs l → ∃ i, l[i]? = some x ∧ l[i + 1]? = some y := by
  intro l
  induction l with
  | nil => intro x y h; simp [cpairs] at h
  | cons a l ih =>
    intro x y h
    cases l with
    | nil => simp [cpairs] at h
    | cons b l' =>
      rw [cpairs_cons₂] at h
      rcases List.mem_cons.mp h with heq | hmem
      · injection heq with h1 h2
        exact ⟨0, by simp [h1], by simp [h2]⟩
      · obtain ⟨i, hi1, hi2⟩ := ih hmem
        exact ⟨i + 1, by simpa using hi1, by simpa using hi2⟩

theorem nodup_getElem?_inj {α : Type} {l : List α} (hnd : l.Nodup) {i j : Nat} {x : α}
    (hi : l[i]? = some x) (hj : l[j]? = some x) : i = j := by
  by_contra hij
  rcases Nat.lt_or_ge i j with h | h
  · have hjlen : j < l.length := by
      by_contra hc
      rw [List.getElem?_eq_none (by omega)] at hj
      simp at hj
    exact (List.nodup_iff_getElem?_ne_getElem?.mp hnd i j h hjlen) (hi.trans hj.symm)
  · have hlt : j < i := by omega
    have hilen : i < l.length := by
      by_contra hc
      rw [List.getElem?_eq_none (by omega)] at hi
      simp at hi
    exact (List.nodup_iff_getElem?_ne_getElem?.mp hnd j i hlt hilen) (hj.trans hi.symm)

theorem cpairs_no_swap {α : Type} {l : List α} (hnd : l.Nodup) {x y : α}
    (h1 : (x, y) ∈ cpairs l) (h2 : (y, x) ∈ cpairs l) : False := by
  obtain ⟨i, hi1, hi2⟩ := cpairs_mem_index h1
  obtain ⟨j, hj1, hj2⟩ := cpairs_mem_index h2
  have e1 : i = j + 1 := nodup_getElem?_inj hnd hi1 hj2
  have e2 : i + 1 = j := nodup_getElem?_inj hnd hi2 hj1
  omega

theorem dedupFirstAux_eq_self {α : Type} [DecidableEq α] :
    ∀ {l seen : List α}, l.Nodup → (∀ x ∈ l, x ∉ seen) → dedupFirstAux seen l = l := by
  intro l
  induction l with
  | nil => intro seen _ _; rfl
  | cons a l ih =>
    intro seen hnd hdis
    have ha : a ∉ seen := hdis a (List.mem_cons_self _ _)
    simp only [dedupFirstAux, ha, if_false]
    congr 1
    apply ih (List.nodup_cons.mp hnd).2
    intro x hx hmem
    rcases List.mem_cons.mp hmem with rfl | hmem'
    · exact (List.nodup_cons.mp hnd).1 hx
    · exact hdis x (List.mem_cons_of_mem _ hx) hmem'

theorem dedupFirst_eq_self {α : Type} [DecidableEq α] {l : List α} (hnd : l.Nodup) :
    dedupFirst l = l :=
  dedupFirstAux_eq_self hnd (by simp)

theorem swap_inj {α : Type} : Function.Injective (fun q : α × α => (q.2, q.1)) := by
  intro p q h
  simp only [Prod.mk.injEq] at h
  obtain ⟨h1, h2⟩ := h
  cases p
  cases q
  simp only [Prod.mk.injEq]
  exact ⟨h2, h1⟩

/-- The undirected edge list of a duplicate-free path is duplicate-free. -/
theorem path_edges_nodup {l : List Nat} (hnd : l.Nodup) :
    (cpairs l ++ (cpairs l).map (fun q => (q.2, q.1))).Nodup := by
  rw [List.nodup_append]
  refine ⟨cpairs_nodup hnd, List.Nodup.map swap_inj (cpairs_nodup hnd), ?_⟩
  intro p hp hq
  obtain ⟨q, hqmem, hqe⟩ := List.mem_map.mp hq
  have hq' : (p.2, p.1) ∈ cpairs l := by
    have : ((q.2, q.1).2, (q.2, q.1).1) ∈ cpairs l := by simpa using hqmem
    rw [hqe] at this
    exact this
  exact cpairs_no_swap hnd (show (p.1, p.2) ∈ cpairs l from hp) hq'

theorem cpairs_filter_src_nil {c : Nat} {l : List Nat} (hc : c ∉ l) :
    (cpairs l).filter (fun e => e.1 == c) = [] := by
  rw [List.filter_eq_nil_iff]
  intro e he
  have := (mem_cpairs_fst_snd he).1
  simp only [beq_iff_eq]
  intro hcon
  exact hc (hcon ▸ this)

theorem cpairs_filter_src : ∀ (pre : List Nat) (c : Nat) (suf : List Nat),
    (pre ++ c :: suf).Nodup →
      ((cpairs (pre ++ c :: suf)).filter (fun e => e.1 == c)).map (fun e => e.2)
        = (match suf with | [] => [] | d :: _ => [d]) := by
  intro pre
  induction pre with
  | nil =>
    intro c suf hnd
    cases suf with
    | nil => rfl
    | cons d suf' =>
      simp only [List.nil_append] at hnd ⊢
      rw [cpairs_cons₂]
      have hc : c ∉ d :: suf' := (List.nodup_cons.mp hnd).1
      rw [List.filter_cons]
      simp only [beq_self_eq_true, if_true]
      rw [cpairs_filter_src_nil hc]
      rfl
  | cons a pre' ih =>
    intro c suf hnd
    have hM : ∃ m0 M', pre' ++ c :: suf = m0 :: M' := by
      cases hp : pre' ++ c :: suf with
      | nil => exact absurd hp (by simp)
      | cons m0 M' => exact ⟨m0, M', rfl⟩
    obtain ⟨m0, M', hM⟩ := hM
    have hstep : (a :: pre') ++ c :: suf = a :: (pre' ++ c :: suf) := rfl
    rw [hstep] at hnd ⊢
    have hac : a ≠ c := by
      have hanotin : a ∉ pre' ++ c :: suf := (List.nodup_cons.mp hnd).1
      intro hcon
      exact hanotin (hcon ▸ (List.mem_append_right _ (List.mem_cons_self _ _)))
    rw [hM, cpairs_cons₂, List.filter_cons]
    have hbeq : ((a, m0).1 == c) = false := by
      simp [hac]
    rw [hbeq]
    simp only [Bool.false_eq_true, if_false]
    rw [← hM]
    exact ih c suf (List.nodup_cons.mp hnd).2

theorem cpairs_filter_tgt_nil {c : Nat} {l : List Nat} (hc : c ∉ l.tail) :
    (cpairs l).filter (fun e => e.2 == c) = [] := by
  rw [List.filter_eq_nil_iff]
  intro e he
  have := mem_cpairs_snd_tail he
  simp only [beq_iff_eq]
  intro hcon
  exact hc (hcon ▸ this)

theorem cpairs_filter_tgt : ∀ (pre : List Nat) (c : Nat) (suf : List Nat),
    (pre ++ c :: suf).Nodup →
      ((cpairs (pre ++ c :: suf)).filter (fun e => e.2 == c)).map (fun e => e.1)
        = (match pre.getLast? with | none => [] | some b => [b]) := by
  intro pre
  induction pre with
  | nil =>
    intro c suf hnd
    simp only [List.nil_append] at hnd ⊢
    have hc : c ∉ (c :: suf).tail := by
      simpa using (List.nodup_cons.mp hnd).1
    rw [cpairs_filter_tgt_nil hc]
    rfl
  | cons a pre' ih =>
    intro c suf hnd
    cases hp : pre' with
    | nil =>
      subst hp
      simp only [List.cons_append, List.nil_append] at hnd ⊢
      have hccs : (c :: suf).Nodup := (List.nodup_cons.mp hnd).2
      have hc : c ∉ suf := (List.nodup_cons.mp hccs).1
      rw [cpairs_cons₂, List.filter_cons]
      simp [cpairs_filter_tgt_nil (show c ∉ (c :: suf).tail from hc)]
    | cons b pre'' =>
      subst hp
      have hstep : ((a :: b :: pre'') ++ c :: suf : List Nat)
          = a :: ((b :: pre'') ++ c :: suf) := rfl
      rw [hstep] at hnd ⊢
      have hM : (b :: pre'') ++ c :: suf = b :: (pre'' ++ c :: suf) := rfl
      rw [hM, cpairs_cons₂, List.filter_cons]
      have hbc : b ≠ c := by
        have hnd2 : (b :: (pre'' ++ c :: suf)).Nodup := by
          rw [← hM]
          exact (List.nodup_cons.mp hnd).2
        have hbnotin : b ∉ pre'' ++ c :: suf := (List.nodup_cons.mp hnd2).1
        intro hcon
        exact hbnotin (hcon ▸ (List.mem_append_right _ (List.mem_cons_self _ _)))
      have hbeq : ((a, b).2 == c) = false := by simp [hbc]
      rw [hbeq]
      simp only [Bool.false_eq_true, if_false]
      rw [← hM]
      have := ih c suf (by rw [hM]; exact (List.nodup_cons.mp hnd).2)
      rw [this]
      rfl

theorem map_swap_filter (L : List (Nat × Nat)) (c : Nat) :
    (((L.map (fun q => (q.2, q.1))).filter (fun e => e.1 == c)).map (fun e => e.2))
      = ((L.filter (fun e => e.2 == c)).map (fun e => e.1)) := by
  induction L with
  | nil => rfl
  | cons p L ih =>
    by_cases hp : (p.2 == c) = true
    · simp [List.filter_cons, show ((p.2, p.1).1 == c) = true from hp, hp, ih]
    · simp [List.filter_cons, show ((p.2, p.1).1 == c) = false from by simpa using hp,
        show (p.2 == c) = false from by simpa using hp, ih]

/-- Neighbour list of c in the `adj` dict built from the two-directional
edge list of a duplicate-free path: the successor of c (when any), then
the predecessor of c (when any). -/
theorem buildAdj_path (pre : List Nat) (c : Nat) (suf : List Nat)
    (hnd : (pre ++ c :: suf).Nodup) :
    buildAdj (cpairs (pre ++ c :: suf)
        ++ (cpairs (pre ++ c :: suf)).map (fun q => (q.2, q.1))) c
      = suf.take 1 ++ pre.getLast?.toList := by
  unfold buildAdj
  rw [List.filter_append, List.map_append]
  rw [cpairs_filter_src pre c suf hnd, map_swap_filter, cpairs_filter_tgt pre c suf hnd]
  cases suf <;> cases pre.getLast? <;> rfl

/-- Running the `_bfs_edges_from` loop over the two-directional edge list
of a duplicate-free path, with the queue at vertex c and the seen set
holding exactly the already-walked prefix, emits exactly the remaining
forward edges of the path in order. -/
theorem bfsLoop_path {P : List Nat} (hnd : P.Nodup) :
    ∀ (suf : List Nat) (c : Nat) (pre : List Nat) (seen : List Nat) (fuel : Nat),
      P = pre ++ c :: suf →
      (∀ x, x ∈ seen ↔ (x ∈ pre ∨ x = c)) →
      suf.length < fuel →
      bfsLoop (buildAdj (cpairs P ++ (cpairs P).map (fun q => (q.2, q.1)))) fuel [c] seen
        = cpairs (c :: suf) := by
  intro suf
  induction suf with
  | nil =>
    intro c pre seen fuel hP hseen hfuel
    cases fuel with
    | zero => exact absurd hfuel (by omega)
    | succ f =>
      have hPnd : (pre ++ c :: []).Nodup := by rw [← hP]; exact hnd
      have hadj0 := buildAdj_path pre c [] hPnd
      rw [← hP] at hadj0
      cases hpre : pre.getLast? with
      | none =>
        have hadj : buildAdj (cpairs P ++ (cpairs P).map (fun q => (q.2, q.1))) c
            = [] := by
          rw [hpre] at hadj0
          simpa using hadj0
        simp only [bfsLoop]
        rw [hadj]
        simp only [List.foldl_nil]
        cases f with
        | zero => simp [bfsLoop, cpairs]
        | succ f' => simp [bfsLoop, cpairs]
      | some b =>
        have hadj : buildAdj (cpairs P ++ (cpairs P).map (fun q => (q.2, q.1))) c
            = [b] := by
          rw [hpre] at hadj0
          simpa using hadj0
        have hb_seen : b ∈ seen :=
          (hseen b).mpr (Or.inl (List.mem_of_getLast?_eq_some hpre))
        simp only [bfsLoop]
        rw [hadj]
        simp only [List.foldl_cons, List.foldl_nil, hb_seen, if_true]
        cases f with
        | zero => simp [bfsLoop, cpairs]
        | succ f' => simp [bfsLoop, cpairs]
  | cons d suf' ih =>
    intro c pre seen fuel hP hseen hfuel
    cases fuel with
    | zero => exact absurd hfuel (by omega)
    | succ f =>
      have hPnd : (pre ++ c :: d :: suf').Nodup := by rw [← hP]; exact hnd
      have hadj0 := buildAdj_path pre c (d :: suf') hPnd
      rw [← hP] at hadj0
      have hd_notin_seen : d ∉ seen := by
        rw [hseen d]
        rintro (hdp | hdc)
        · have hdisj := List.disjoint_of_nodup_append hPnd
          exact hdisj hdp (List.mem_cons_of_mem _ (List.mem_cons_self _ _))
        · have h2 : (c :: d :: suf').Nodup := (List.nodup_append.mp hPnd).2.1
          exact (List.nodup_cons.mp h2).1 (hdc ▸ List.mem_cons_self d suf')
      have hihres : bfsLoop
          (buildAdj (cpairs P ++ (cpairs P).map (fun q => (q.2, q.1)))) f [d] (d :: seen)
          = cpairs (d :: suf') := by
        apply ih d (pre ++ [c]) (d :: seen) f
        · rw [hP]
          simp
        · intro x
          simp only [List.mem_cons, List.mem_append, List.mem_singleton, hseen x]
          tauto
        · simp only [List.length_cons] at hfuel
          omega
      cases hpre : pre.getLast? with
      | none =>
        have hadj : buildAdj (cpairs P ++ (cpairs P).map (fun q => (q.2, q.1))) c
            = [d] := by
          rw [hpre] at hadj0
          simpa using hadj0
        simp only [bfsLoop]
        rw [hadj]
        simp only [List.foldl_cons, List.foldl_nil, hd_notin_seen, if_false]
        simp only [List.nil_append]
        rw [hihres, cpairs_cons₂]
        rfl
      | some b =>
        have hadj : buildAdj (cpairs P ++ (cpairs P).map (fun q => (q.2, q.1))) c
            = [d, b] := by
          rw [hpre] at hadj0
          simpa using hadj0
        have hb_seen : b ∈ seen :=
          (hseen b).mpr (Or.inl (List.mem_of_getLast?_eq_some hpre))
        simp only [bfsLoop]
        rw [hadj]
        simp only [List.foldl_cons, List.foldl_nil, hd_notin_seen, if_false,
          List.mem_cons, hb_seen, or_true, if_true]
        simp only [List.nil_append]
        rw [hihres, cpairs_cons₂]
        rfl

/-- C2: for two distinct known tables in the same component,
`connect_tables` over exactly that pair succeeds and returns a step list
whose set of unordered {left, right} table pairs is the one of
`shortest_join_path` for the same pair — the two-terminal Steiner
expansion reduces to the single shortest path between them (the step
lists even coincide). -/
theorem connect_pair_matches_shortest {info : FKInfo} {A B : String}
    (hA : A ∈ info.tables) (hB : B ∈ info.tables)
    (hAB : A ≠ B)
    (hcomp : comps info (idxOf info A) = comps info (idxOf info B)) :
    ∃ s1 s2, shortest_join_path info A B = Except.ok s1 ∧
      connect_tables info [A, B] = Except.ok s2 ∧
      (s1.map stepPair).toFinset = (s2.map stepPair).toFinset := by
  have hiAn : idxOf info A < nTab info := idxOf_lt hA
  have hiBn : idxOf info B < nTab info := idxOf_lt hB
  have hneidx : idxOf info A ≠ idxOf info B := fun h => hAB (idxOf_inj hA hB h)
  have hreach : idxOf info B ∈ ball info (idxOf info A) (nTab info) :=
    comps_eq_reach hiAn hiBn hcomp
  obtain ⟨d, hd, hdn⟩ := distB_of_mem hreach
  have hd0 : d ≠ 0 := by
    intro h0
    subst h0
    have hball := (distB_spec hd).1
    simp [ball] at hball
    exact hneidx hball.symm
  have hdlt : d < nTab info + 1 := by omega
  have hppairs := reconstruct_path_pair_facts hiAn hd hdlt
  obtain ⟨steps, hsteps⟩ : ∃ steps, steps_from_path info
      (reconstruct_path (predB info (idxOf info A)) (idxOf info A) (idxOf info B)
        (nTab info + 1)) = Except.ok steps := by
    unfold steps_from_path
    apply mapE_all_ok
    intro xy hxy
    obtain ⟨hadj, _, _, _⟩ := hppairs xy hxy
    obtain ⟨st, hst, _, _⟩ := edge_to_step_ok hadj
    exact ⟨st, hst⟩
  have hsjp : shortest_join_path info A B = Except.ok steps := by
    unfold shortest_join_path
    rw [if_neg (by simp [hA, hB])]
    rw [if_neg (by simp [hcomp])]
    rw [hd]
    exact hsteps
  have hpnodup : (reconstruct_path (predB info (idxOf info A)) (idxOf info A)
      (idxOf info B) (nTab info + 1)).Nodup := reconstruct_path_nodup hiAn hd hdlt
  have hentries : mstEntries info [idxOf info A, idxOf info B]
      = [(0, 0, none), (0, 1, some d), (1, 0, some d), (1, 1, none)] := by
    simp [mstEntries, wVal, List.range_succ, hd, hd0]
  have hsort : sortEdges [(0, 0, none), (0, 1, some d), (1, 0, some d), (1, 1, none)]
      = [(0, 1, some d), (1, 0, some d), (0, 0, none), (1, 1, none)] := by
    simp [sortEdges, insWeighted, optLe]
  have hmst : minimum_spanning_tree 2 (mstEntries info [idxOf info A, idxOf info B])
      = [(0, 1)] := by
    rw [hentries]
    unfold minimum_spanning_tree
    rw [hsort]
    rfl
  have hexp : steinerEdges info [idxOf info A, idxOf info B] [(0, 1)]
      = cpairs (reconstruct_path (predB info (idxOf info A)) (idxOf info A)
          (idxOf info B) (nTab info + 1))
        ++ (cpairs (reconstruct_path (predB info (idxOf info A)) (idxOf info A)
          (idxOf info B) (nTab info + 1))).map (fun q => (q.2, q.1)) := by
    unfold steinerEdges expandEdge
    simp only [List.flatMap_cons, List.flatMap_nil, List.append_nil]
    exact dedupFirst_eq_self (path_edges_nodup hpnodup)
  have hordered : bfs_edges_from (idxOf info A)
      (steinerEdges info [idxOf info A, idxOf info B] [(0, 1)])
      = cpairs (reconstruct_path (predB info (idxOf info A)) (idxOf info A)
          (idxOf info B) (nTab info + 1)) := by
    rw [hexp]
    unfold bfs_edges_from
    have hpe := reconstruct_path_eq (predB info (idxOf info A)) (idxOf info A)
      (idxOf info B) (nTab info + 1)
    have hlen1 : (reconstruct_path (predB info (idxOf info A)) (idxOf info A)
        (idxOf info B) (nTab info + 1)).length
        = ((reconLoop (predB info (idxOf info A)) (idxOf info A) (nTab info + 1)
          (idxOf info B)).reverse).length + 1 := by
      rw [hpe]
      simp
    have hmain := bfsLoop_path hpnodup
      ((reconLoop (predB info (idxOf info A)) (idxOf info A) (nTab info + 1)
        (idxOf info B)).reverse)
      (idxOf info A) [] [idxOf info A]
      (2 * (cpairs (reconstruct_path (predB info (idxOf info A)) (idxOf info A)
          (idxOf info B) (nTab info + 1))
        ++ (cpairs (reconstruct_path (predB info (idxOf info A)) (idxOf info A)
          (idxOf info B) (nTab info + 1))).map (fun q => (q.2, q.1))).length + 1)
      (by simpa using hpe)
      (by intro x; simp)
      (by
        simp only [List.length_append, List.length_map, cpairs_length, hlen1]
        omega)
    rw [hmain, ← hpe]
  have hreq : dedupFirst [A, B] = [A, B] := by
    simp [dedupFirst, dedupFirstAux, Ne.symm hAB]
  have hct : connect_tables info [A, B] = Except.ok steps := by
    unfold connect_tables
    rw [hreq]
    rw [if_neg (by simp)]
    rw [if_neg (by simp [hA, hB])]
    simp only [List.map_cons, List.map_nil, List.headD_cons]
    rw [if_neg (by simp [hcomp])]
    rw [if_neg (by
      simp [pairsFinite, List.range_succ, hd])]
    have h2 : ([idxOf info A, idxOf info B] : List Nat).length = 2 := rfl
    rw [h2, hmst, hordered]
    exact hsteps
  exact ⟨steps, steps, hsjp, hct, rfl⟩

/-- Witness for C2: instantiated at the shop schema for the pair
("orders", "products"). -/
theorem connect_pair_matches_shortest_witness :
    ∃ s1 s2, shortest_join_path exInfoShop "orders" "products" = Except.ok s1 ∧
      connect_tables exInfoShop ["orders", "products"] = Except.ok s2 ∧
      (s1.map stepPair).toFinset = (s2.map stepPair).toFinset :=
  @connect_pair_matches_shortest exInfoShop "orders" "products"
    (by decide) (by decide) (by decide) (by decide)
